import Mathlib

/-!
Shallow embedding of the Rossum Elis extraction client
(`src/rossum/extraction.py`) and proofs about its field-deduplication
algorithm, its polling loop and its orchestration of submit / poll.

Modelling conventions:
* A Python dict representing an extracted field is modelled by `Field`,
  a record of the keys the algorithm reads (`name`, `title`, `value`,
  `score`, `content`); an absent key is `none`.  Accessing an absent key
  raises `KeyError`, so every dict access is modelled in the
  `Except PyErr` monad.
* `score` values are Python floats; they are modelled by `ℚ`, which has
  the same ordered-field comparisons on the values the client sees.
* Python's `sorted(xs, key=f)` first computes `f` on every element
  (raising `KeyError` if a key is missing) and then performs a *stable*
  sort on the keys.  Stable sorting has a unique result, so it is
  modelled by `List.insertionSort` on key-decorated pairs, which is
  stable for the relation `p.1 ≤ q.1`.
* `itertools.groupby` over a list sorted by key groups maximal runs of
  equal keys; it is modelled by `groupRuns`.
-/

namespace Rossum

/-- Python exceptions that the client code can raise. -/
inductive PyErr where
  | keyError
  | indexError
  | valueError (msg : String)
  | timeoutError
deriving DecidableEq

/-- A Python `str`, modelled as its code-point sequence: Python
compares strings lexicographically by code point, and this
representation keeps every comparison kernel-computable.  String
literals enter as `"...".toList`. -/
abbrev Str : Type := List Char

/-- A parsed JSON field object: the keys read by the client, each
optional because a dict may lack it.  `content` makes the type nested
recursive (`tax_details` items hold sub-fields). -/
inductive Field where
  | mk (name title value : Option Str) (score : Option ℚ)
       (content : Option (List Field)) : Field

def Field.name : Field → Option Str
  | .mk n _ _ _ _ => n

def Field.title : Field → Option Str
  | .mk _ t _ _ _ => t

def Field.value : Field → Option Str
  | .mk _ _ v _ _ => v

def Field.score : Field → Option ℚ
  | .mk _ _ _ s _ => s

def Field.content : Field → Option (List Field)
  | .mk _ _ _ _ c => c

/-- `item.copy()` followed by `new_item['content'] = cs`. -/
def Field.withContent : Field → List Field → Field
  | .mk n t v s _, cs => .mk n t v s (some cs)

/-- A Python list comprehension `[f(x) for x in l]` in which `f` may
raise: evaluates left to right, propagating the first exception. -/
def mapE (f : α → Except PyErr β) : List α → Except PyErr (List β)
  | [] => .ok []
  | a :: l =>
    match f a with
    | .error e => .error e
    | .ok b =>
      match mapE f l with
      | .error e => .error e
      | .ok bs => .ok (b :: bs)

/-- `itertools.groupby`: chunk maximal runs of adjacent equal keys. -/
def groupRuns [DecidableEq κ] : List (κ × α) → List (κ × List α)
  | [] => []
  | (k, a) :: rest =>
    match groupRuns rest with
    | [] => [(k, [a])]
    | (k2, g) :: gs =>
      if k = k2 then (k, a :: g) :: gs else (k, [a]) :: (k2, g) :: gs

/-- The comparison used when stably sorting key-decorated pairs. -/
def keyLE [LinearOrder κ] (p q : κ × α) : Prop := p.1 ≤ q.1

instance [LinearOrder κ] : DecidableRel (keyLE (κ := κ) (α := α)) :=
  fun p q => inferInstanceAs (Decidable (p.1 ≤ q.1))

/-- `lambda f: f[key]` under `sorted`/`groupby`: look the key up in the
dict (raising `KeyError` when absent) and decorate the element with it. -/
def keyOf (key : Field → Option κ) (f : Field) : Except PyErr (κ × Field) :=
  match key f with
  | none => .error .keyError
  | some k => .ok (k, f)

/-- `group_by_key(values, key)` =
`groupby(sorted(values, key=lambda f: f[key]), lambda f: f[key])`:
extract every element's key (raising `KeyError` on a missing one),
stably sort by key, then group runs of equal keys. -/
def group_by_key [LinearOrder κ] (key : Field → Option κ) (values : List Field) :
    Except PyErr (List (κ × List Field)) :=
  match mapE (keyOf key) values with
  | .error e => .error e
  | .ok keyed => .ok (groupRuns (keyed.insertionSort keyLE))

/-- `sort_by_score(values)` = `sorted(values, key=lambda f: f['score'])`. -/
def sort_by_score (values : List Field) : Except PyErr (List Field) :=
  match mapE (keyOf Field.score) values with
  | .error e => .error e
  | .ok keyed => .ok ((keyed.insertionSort keyLE).map (·.2))

/-- The idiom `sort_by_score(xs)[-1]` shared by both leaf policies:
the last element of the score-sorted list.  Indexing `[-1]` on an
empty list raises `IndexError`. -/
def bestOfRun (xs : List Field) : Except PyErr Field :=
  match sort_by_score xs with
  | .error e => .error e
  | .ok s =>
    match s.getLast? with
    | none => .error .indexError
    | some m => .ok m

/-- `deduplicate_single_value_field(group)` = `[sort_by_score(group)[-1]]`. -/
def deduplicate_single_value_field (group : List Field) :
    Except PyErr (List Field) :=
  match bestOfRun group with
  | .error e => .error e
  | .ok m => .ok [m]

/-- `deduplicate_multi_value_field(group)` =
`[sort_by_score(fs)[-1] for (value, fs) in group_by_key(group, 'value')]`. -/
def deduplicate_multi_value_field (group : List Field) :
    Except PyErr (List Field) :=
  match group_by_key Field.value group with
  | .error e => .error e
  | .ok gs => mapE (fun p => bestOfRun p.2) gs

/-- `'_addrline' in name`: substring containment. -/
def addrline (name : Str) : Bool :=
  decide ("_addrline".toList <:+: name)

/-! Facts about `mapE`, `groupRuns` and `group_by_key` that the
termination argument of the recursive deduplication needs. -/

theorem mapE_ok_forall₂ {f : α → Except PyErr β} :
    ∀ {l : List α} {ys : List β}, mapE f l = .ok ys →
      List.Forall₂ (fun x y => f x = .ok y) l ys := by
  intro l
  induction l with
  | nil => intro ys h; simp [mapE] at h; simp [← h]
  | cons a l ih =>
    intro ys h
    simp only [mapE] at h
    cases hfa : f a with
    | error e => rw [hfa] at h; exact absurd h (by simp)
    | ok b =>
      rw [hfa] at h
      cases hl : mapE f l with
      | error e => rw [hl] at h; exact absurd h (by simp)
      | ok bs =>
        rw [hl] at h
        cases h
        exact List.Forall₂.cons hfa (ih hl)

theorem forall₂_mapE_ok {f : α → Except PyErr β} :
    ∀ {l : List α} {ys : List β},
      List.Forall₂ (fun x y => f x = .ok y) l ys → mapE f l = .ok ys := by
  intro l ys h
  induction h with
  | nil => rfl
  | cons hfa _ ih => simp only [mapE, hfa, ih]

theorem mem_of_mem_groupRuns [DecidableEq κ] :
    ∀ {l : List (κ × α)} {k : κ} {g : List α} {a : α},
      (k, g) ∈ groupRuns l → a ∈ g → (k, a) ∈ l := by
  intro l
  induction l with
  | nil => intro k g a h; simp [groupRuns] at h
  | cons p rest ih =>
    obtain ⟨k0, a0⟩ := p
    intro k g a hmem ha
    simp only [groupRuns] at hmem
    cases hr : groupRuns rest with
    | nil =>
      rw [hr] at hmem
      simp at hmem
      obtain ⟨hk, hg⟩ := hmem
      subst hk; subst hg
      simp at ha
      subst ha
      exact List.mem_cons_self _ _
    | cons q gs =>
      obtain ⟨k2, g2⟩ := q
      rw [hr] at hmem
      have hmem : (k, g) ∈
          (if k0 = k2 then (k0, a0 :: g2) :: gs
           else (k0, [a0]) :: (k2, g2) :: gs) := hmem
      by_cases hk : k0 = k2
      · rw [if_pos hk] at hmem
        rcases List.mem_cons.mp hmem with hhd | htl
        · cases hhd
          rcases List.mem_cons.mp ha with rfl | ha2
          · exact List.mem_cons_self _ _
          · subst hk
            exact List.mem_cons_of_mem _
              (ih (hr ▸ List.mem_cons_self _ _) ha2)
        · exact List.mem_cons_of_mem _ (ih (hr ▸ List.mem_cons_of_mem _ htl) ha)
      · rw [if_neg hk] at hmem
        rcases List.mem_cons.mp hmem with hhd | htl
        · cases hhd
          simp at ha
          subst ha
          exact List.mem_cons_self _ _
        · exact List.mem_cons_of_mem _ (ih (hr ▸ htl) ha)

theorem keyOf_ok {key : Field → Option κ} {f : Field} {p : κ × Field}
    (h : keyOf key f = .ok p) : key f = some p.1 ∧ p.2 = f := by
  unfold keyOf at h
  cases hk : key f with
  | none => rw [hk] at h; exact absurd h (by simp)
  | some k => rw [hk] at h; cases h; exact ⟨rfl, rfl⟩

theorem mem_keyed_of_mapE {key : Field → Option κ} :
    ∀ {values : List Field} {keyed : List (κ × Field)},
      mapE (keyOf key) values = .ok keyed →
      ∀ {k : κ} {f : Field}, (k, f) ∈ keyed →
        f ∈ values ∧ key f = some k := by
  intro values keyed h k f hmem
  induction mapE_ok_forall₂ h with
  | nil => simp at hmem
  | cons hfa htail ih =>
    rcases List.mem_cons.mp hmem with heq | hmem2
    · obtain ⟨h1, h2⟩ := keyOf_ok hfa
      rw [← heq] at h1 h2
      simp only at h1 h2
      subst h2
      exact ⟨List.mem_cons_self _ _, h1⟩
    · obtain ⟨h1, h2⟩ := ih (forall₂_mapE_ok htail) hmem2
      exact ⟨List.mem_cons_of_mem _ h1, h2⟩

theorem groupRuns_ne_nil [DecidableEq κ] :
    ∀ {l : List (κ × α)} {k : κ} {g : List α},
      (k, g) ∈ groupRuns l → g ≠ [] := by
  intro l
  induction l with
  | nil => intro k g h; simp [groupRuns] at h
  | cons p rest ih =>
    obtain ⟨k0, a0⟩ := p
    intro k g hmem
    simp only [groupRuns] at hmem
    cases hr : groupRuns rest with
    | nil =>
      rw [hr] at hmem
      simp at hmem
      rw [hmem.2]
      simp
    | cons q gs =>
      obtain ⟨k2, g2⟩ := q
      rw [hr] at hmem
      have hmem : (k, g) ∈
          (if k0 = k2 then (k0, a0 :: g2) :: gs
           else (k0, [a0]) :: (k2, g2) :: gs) := hmem
      by_cases hk : k0 = k2
      · rw [if_pos hk] at hmem
        rcases List.mem_cons.mp hmem with hhd | htl
        · cases hhd; simp
        · exact ih (hr ▸ List.mem_cons_of_mem _ htl)
      · rw [if_neg hk] at hmem
        rcases List.mem_cons.mp hmem with hhd | htl
        · cases hhd; simp
        · exact ih (hr ▸ htl)

theorem groupRuns_covering [DecidableEq κ] :
    ∀ {l : List (κ × α)} {k : κ} {a : α},
      (k, a) ∈ l → ∃ g, (k, g) ∈ groupRuns l ∧ a ∈ g := by
  intro l
  induction l with
  | nil => intro k a h; simp at h
  | cons p rest ih =>
    obtain ⟨k0, a0⟩ := p
    intro k a hmem
    simp only [groupRuns]
    cases hr : groupRuns rest with
    | nil =>
      rcases List.mem_cons.mp hmem with hhd | htl
      · obtain ⟨rfl, rfl⟩ := Prod.mk.inj hhd
        exact ⟨[a], List.mem_singleton_self _, List.mem_singleton_self _⟩
      · obtain ⟨g, hg, _⟩ := ih htl
        rw [hr] at hg
        simp at hg
    | cons q gs =>
      obtain ⟨k2, g2⟩ := q
      show ∃ g, (k, g) ∈
        (if k0 = k2 then (k0, a0 :: g2) :: gs
         else (k0, [a0]) :: (k2, g2) :: gs) ∧ a ∈ g
      rcases List.mem_cons.mp hmem with hhd | htl
      · obtain ⟨rfl, rfl⟩ := Prod.mk.inj hhd
        by_cases hk : k = k2
        · rw [if_pos hk]
          exact ⟨a :: g2, List.mem_cons_self _ _, List.mem_cons_self _ _⟩
        · rw [if_neg hk]
          exact ⟨[a], List.mem_cons_self _ _, List.mem_singleton_self _⟩
      · obtain ⟨g, hg, ha⟩ := ih htl
        rw [hr] at hg
        rcases List.mem_cons.mp hg with hghd | hgtl
        · obtain ⟨rfl, rfl⟩ := Prod.mk.inj hghd
          by_cases hk : k0 = k
          · rw [if_pos hk]
            subst hk
            exact ⟨a0 :: g, List.mem_cons_self _ _,
              List.mem_cons_of_mem _ ha⟩
          · rw [if_neg hk]
            exact ⟨g, List.mem_cons_of_mem _ (List.mem_cons_self _ _), ha⟩
        · by_cases hk : k0 = k2
          · rw [if_pos hk]
            exact ⟨g, List.mem_cons_of_mem _ hgtl, ha⟩
          · rw [if_neg hk]
            exact ⟨g, List.mem_cons_of_mem _
              (List.mem_cons_of_mem _ hgtl), ha⟩

theorem groupRuns_exists_pair [DecidableEq κ] {l : List (κ × α)}
    {k : κ} {g : List α} (h : (k, g) ∈ groupRuns l) : ∃ a, (k, a) ∈ l := by
  cases hg : g with
  | nil => exact absurd hg (groupRuns_ne_nil h)
  | cons a g' =>
    exact ⟨a, mem_of_mem_groupRuns h (hg ▸ List.mem_cons_self _ _)⟩

theorem groupRuns_keys_pairwise [LinearOrder κ] :
    ∀ {l : List (κ × α)}, l.Pairwise keyLE →
      ((groupRuns l).map Prod.fst).Pairwise (· < ·) := by
  intro l
  induction l with
  | nil => intro _; simp [groupRuns]
  | cons p rest ih =>
    obtain ⟨k0, a0⟩ := p
    intro hp
    obtain ⟨h0, hrest⟩ := List.pairwise_cons.mp hp
    simp only [groupRuns]
    cases hr : groupRuns rest with
    | nil => simp
    | cons q gs =>
      obtain ⟨k2, g2⟩ := q
      have ihr := ih hrest
      rw [hr] at ihr
      simp only [List.map_cons] at ihr
      obtain ⟨h2, hgs⟩ := List.pairwise_cons.mp ihr
      have hk02 : k0 ≤ k2 := by
        obtain ⟨a2, ha2⟩ :=
          groupRuns_exists_pair (hr ▸ List.mem_cons_self (k2, g2) gs)
        exact h0 (k2, a2) ha2
      show ((if k0 = k2 then (k0, a0 :: g2) :: gs
        else (k0, [a0]) :: (k2, g2) :: gs).map Prod.fst).Pairwise (· < ·)
      by_cases hk : k0 = k2
      · rw [if_pos hk]
        simp only [List.map_cons]
        refine List.pairwise_cons.mpr ⟨?_, hgs⟩
        intro k' hk'
        rw [hk]
        exact h2 k' hk'
      · rw [if_neg hk]
        simp only [List.map_cons]
        refine List.pairwise_cons.mpr ⟨?_, ihr⟩
        intro k' hk'
        rcases List.mem_cons.mp hk' with rfl | hk2
        · exact lt_of_le_of_ne hk02 hk
        · exact lt_of_le_of_lt hk02 (h2 k' hk2)

theorem snd_mem_values_of_group_by_key [LinearOrder κ]
    {key : Field → Option κ} {values : List Field}
    {gs : List (κ × List Field)} {k : κ} {g : List Field} {f : Field}
    (h : group_by_key key values = .ok gs)
    (hg : (k, g) ∈ gs) (hf : f ∈ g) : f ∈ values := by
  unfold group_by_key at h
  cases hm : mapE (keyOf key) values with
  | error e => rw [hm] at h; exact absurd h (by simp)
  | ok keyed =>
    rw [hm] at h
    cases h
    have hpair : (k, f) ∈ keyed.insertionSort keyLE :=
      mem_of_mem_groupRuns hg hf
    exact (mem_keyed_of_mapE hm ((List.mem_insertionSort keyLE).mp hpair)).1


theorem sizeOf_content_lt {f : Field} {c : List Field}
    (h : f.content = some c) : sizeOf c < sizeOf f := by
  cases f with
  | mk n t v s cnt =>
    simp only [Field.content] at h
    subst h
    simp only [Field.mk.sizeOf_spec, Option.some.sizeOf_spec]
    omega

/-- The final list comprehension of `deduplicate_fields`: concatenate
the groups' surviving entries (propagating any exception). -/
def dedupAssemble (parts : Except PyErr (List (List Field))) :
    Except PyErr (List Field) :=
  match parts with
  | .error e => .error e
  | .ok ps => .ok ps.flatten

/-- The inner recursive `deduplicate_fields(fields)` of
`_deduplicate_fields`: group by `'name'`, apply the per-name policy to
each group (recursing into `'content'` for `tax_details` groups) and
concatenate the surviving entries.  The `tax_details` branch of
`deduplicate_group` and `deduplicate_content` are inlined here (the
standalone versions below are proved equal in
`deduplicate_fields_eq`) so that the recursion can carry the
membership facts its termination argument needs. -/
def deduplicate_fields (fields : List Field) : Except PyErr (List Field) :=
  match hg : group_by_key Field.name fields with
  | .error e => .error e
  | .ok groups =>
    dedupAssemble (mapE (fun p : {x // x ∈ groups} =>
      if p.1.1 = "tax_details".toList then
        mapE (fun q : {x // x ∈ p.1.2} =>
          match hc : q.1.content with
          | none => .error .keyError
          | some c =>
            match deduplicate_fields c with
            | .error e => .error e
            | .ok c2 => .ok (q.1.withContent c2)) p.1.2.attach
      else if addrline p.1.1 then deduplicate_multi_value_field p.1.2
      else deduplicate_single_value_field p.1.2) groups.attach)
termination_by sizeOf fields
decreasing_by
  have hp : (p.1.1, p.1.2) ∈ groups := by
    rw [Prod.mk.eta]; exact p.2
  have hf : q.1 ∈ fields := snd_mem_values_of_group_by_key hg hp q.2
  have h1 := List.sizeOf_lt_of_mem hf
  have h2 := sizeOf_content_lt hc
  omega

/-- `deduplicate_content(item)`: copy the dict and replace its
`'content'` entry by the recursively deduplicated sub-fields. -/
def deduplicate_content (item : Field) : Except PyErr Field :=
  match item.content with
  | none => .error .keyError
  | some c =>
    match deduplicate_fields c with
    | .error e => .error e
    | .ok c2 => .ok (item.withContent c2)

/-- `deduplicate_group(name, group)`: select the per-name policy. -/
def deduplicate_group (name : Str) (group : List Field) :
    Except PyErr (List Field) :=
  if name = "tax_details".toList then mapE deduplicate_content group
  else if addrline name then deduplicate_multi_value_field group
  else deduplicate_single_value_field group

/-- The exported `_deduplicate_fields(fields)`. -/
def _deduplicate_fields (fields : List Field) : Except PyErr (List Field) :=
  deduplicate_fields fields

theorem mapE_congr {f g : α → Except PyErr β} :
    ∀ {l : List α}, (∀ a ∈ l, f a = g a) → mapE f l = mapE g l := by
  intro l
  induction l with
  | nil => intro _; rfl
  | cons a l ih =>
    intro h
    simp only [mapE, h a (List.mem_cons_self _ _),
      ih (fun x hx => h x (List.mem_cons_of_mem _ hx))]

theorem mapE_pmap {P : α → Prop} (F : α → Except PyErr β) :
    ∀ (l : List α) (H : ∀ a ∈ l, P a),
      mapE (fun p : {x // P x} => F p.1) (l.pmap Subtype.mk H) = mapE F l := by
  intro l
  induction l with
  | nil => intro H; rfl
  | cons a l ih =>
    intro H
    simp only [List.pmap, mapE]
    rw [ih]

theorem mapE_attach (l : List α) (F : α → Except PyErr β) :
    mapE (fun p : {x // x ∈ l} => F p.1) l.attach = mapE F l := by
  have h : l.attach = l.pmap Subtype.mk (fun _ h => h) := by
    simp [List.attach, List.attachWith, List.pmap]
  rw [h, mapE_pmap]

instance [LinearOrder κ] : IsTotal (κ × α) keyLE :=
  ⟨fun p q => le_total p.1 q.1⟩

instance [LinearOrder κ] : IsTrans (κ × α) keyLE :=
  ⟨fun _ _ _ => le_trans⟩

theorem mapE_keyOf_snd {key : Field → Option κ} :
    ∀ {values : List Field} {keyed : List (κ × Field)},
      mapE (keyOf key) values = .ok keyed →
      keyed.map Prod.snd = values := by
  intro values keyed h
  induction mapE_ok_forall₂ h with
  | nil => rfl
  | cons hfa htail ih =>
    simp only [List.map_cons, (keyOf_ok hfa).2,
      ih (forall₂_mapE_ok htail)]

theorem exists_pair_of_mem {key : Field → Option κ} :
    ∀ {values : List Field} {keyed : List (κ × Field)},
      mapE (keyOf key) values = .ok keyed →
      ∀ {f : Field}, f ∈ values → ∃ k, (k, f) ∈ keyed ∧ key f = some k := by
  intro values keyed h f hf
  induction mapE_ok_forall₂ h with
  | nil => simp at hf
  | cons hfa htail ih =>
    rename_i x y l₁ l₂
    rcases List.mem_cons.mp hf with rfl | hf2
    · obtain ⟨h1, h2⟩ := keyOf_ok hfa
      refine ⟨y.1, ?_, h1⟩
      rw [← h2, Prod.mk.eta]
      exact List.mem_cons_self _ _
    · obtain ⟨k, hk1, hk2⟩ := ih (forall₂_mapE_ok htail) hf2
      exact ⟨k, List.mem_cons_of_mem _ hk1, hk2⟩

theorem pairwise_getLast {R : α → α → Prop} (hrefl : ∀ a, R a a) :
    ∀ {l : List α} {m : α}, l.Pairwise R → l.getLast? = some m →
      ∀ a ∈ l, R a m := by
  intro l
  induction l with
  | nil => intro m _ h; simp at h
  | cons x l ih =>
    intro m hp hlast a ha
    cases l with
    | nil =>
      simp only [List.getLast?_singleton, Option.some.injEq] at hlast
      subst hlast
      simp only [List.mem_singleton] at ha
      subst ha
      exact hrefl a
    | cons y l' =>
      rw [List.getLast?_cons_cons] at hlast
      rcases List.mem_cons.mp ha with rfl | ha2
      · exact (List.pairwise_cons.mp hp).1 m
          (List.mem_of_getLast?_eq_some hlast)
      · exact ih (List.pairwise_cons.mp hp).2 hlast a ha2

/-- A successful `sort_by_score` permutes its input, and certifies that
every input field carries a `'score'`. -/
theorem sort_by_score_perm {values s : List Field}
    (h : sort_by_score values = .ok s) : s.Perm values := by
  unfold sort_by_score at h
  cases hm : mapE (keyOf Field.score) values with
  | error e => rw [hm] at h; exact absurd h (by simp)
  | ok keyed =>
    rw [hm] at h
    cases h
    have h1 : ((keyed.insertionSort keyLE).map Prod.snd).Perm
        (keyed.map Prod.snd) := (List.perm_insertionSort keyLE keyed).map _
    rw [mapE_keyOf_snd hm] at h1
    exact h1

theorem sort_by_score_scores {values s : List Field}
    (h : sort_by_score values = .ok s) :
    ∀ f ∈ values, ∃ sf, f.score = some sf := by
  unfold sort_by_score at h
  cases hm : mapE (keyOf Field.score) values with
  | error e => rw [hm] at h; exact absurd h (by simp)
  | ok keyed =>
    intro f hf
    obtain ⟨k, _, hk⟩ := exists_pair_of_mem hm hf
    exact ⟨k, hk⟩

/-- The last element of a successful `sort_by_score` is a member of the
input whose score is greatest. -/
theorem sort_by_score_getLast_max {values s : List Field} {m : Field}
    (h : sort_by_score values = .ok s) (hlast : s.getLast? = some m) :
    m ∈ values ∧ ∃ sm, m.score = some sm ∧
      ∀ f ∈ values, ∃ sf, f.score = some sf ∧ sf ≤ sm := by
  unfold sort_by_score at h
  cases hm : mapE (keyOf Field.score) values with
  | error e => rw [hm] at h; exact absurd h (by simp)
  | ok keyed =>
    rw [hm] at h
    cases h
    rw [List.getLast?_map] at hlast
    cases hpl : (keyed.insertionSort keyLE).getLast? with
    | none => rw [hpl] at hlast; exact absurd hlast (by simp)
    | some pm =>
      rw [hpl] at hlast
      simp only [Option.map_some', Option.some.injEq] at hlast
      subst hlast
      have hpm : (pm.1, pm.2) ∈ keyed := by
        rw [Prod.mk.eta]
        exact (List.mem_insertionSort keyLE).mp
          (List.mem_of_getLast?_eq_some hpl)
      obtain ⟨hmem, hscore⟩ := mem_keyed_of_mapE hm hpm
      refine ⟨hmem, pm.1, hscore, ?_⟩
      intro f hf
      obtain ⟨k, hk1, hk2⟩ := exists_pair_of_mem hm hf
      refine ⟨k, hk2, ?_⟩
      have hsorted : (keyed.insertionSort keyLE).Pairwise keyLE :=
        List.sorted_insertionSort keyLE keyed
      have hrefl : ∀ a : ℚ × Field, keyLE a a := fun a => le_refl a.1
      exact pairwise_getLast hrefl hsorted hpl (k, f)
        ((List.mem_insertionSort keyLE).mpr hk1)

/-- Soundness of `group_by_key`: members of a group carry that group's
key and come from the input; every input element lands in some group;
group keys are strictly increasing; groups are nonempty. -/
theorem group_by_key_sound [LinearOrder κ] {key : Field → Option κ}
    {values : List Field} {gs : List (κ × List Field)}
    (h : group_by_key key values = .ok gs) :
    (∀ p ∈ gs, ∀ f ∈ p.2, f ∈ values ∧ key f = some p.1) ∧
    (∀ f ∈ values, ∃ p ∈ gs, f ∈ p.2) ∧
    ((gs.map Prod.fst).Pairwise (· < ·)) ∧
    (∀ p ∈ gs, p.2 ≠ []) := by
  unfold group_by_key at h
  cases hm : mapE (keyOf key) values with
  | error e => rw [hm] at h; exact absurd h (by simp)
  | ok keyed =>
    rw [hm] at h
    cases h
    refine ⟨?_, ?_, ?_, ?_⟩
    · rintro ⟨k, g⟩ hp f hf
      exact mem_keyed_of_mapE hm
        ((List.mem_insertionSort keyLE).mp
          (mem_of_mem_groupRuns hp hf))
    · intro f hf
      obtain ⟨k, hk1, _⟩ := exists_pair_of_mem hm hf
      obtain ⟨g, hg1, hg2⟩ :=
        groupRuns_covering ((List.mem_insertionSort keyLE).mpr hk1)
      exact ⟨(k, g), hg1, hg2⟩
    · exact groupRuns_keys_pairwise (List.sorted_insertionSort keyLE keyed)
    · rintro ⟨k, g⟩ hp
      exact groupRuns_ne_nil hp

/-- Groups of a `group_by_key` result are determined by their key. -/
theorem group_by_key_key_injective [LinearOrder κ] {key : Field → Option κ}
    {values : List Field} {gs : List (κ × List Field)}
    (h : group_by_key key values = .ok gs) :
    ∀ p ∈ gs, ∀ q ∈ gs, p.1 = q.1 → p = q := by
  have hpw : gs.Pairwise (fun p q => p.1 < q.1) :=
    List.pairwise_map.mp (group_by_key_sound h).2.2.1
  have hne : gs.Pairwise (fun p q : κ × List Field => p.1 ≠ q.1) :=
    hpw.imp (fun hlt => ne_of_lt hlt)
  intro p hp q hq hkey
  by_contra hpq
  have hsym : Symmetric (fun p q : κ × List Field => p.1 ≠ q.1) :=
    fun _ _ hab e => hab e.symm
  exact List.Pairwise.forall hsym hne hp hq hpq hkey

theorem forall₂_exists_left {R : α → β → Prop} :
    ∀ {l₁ : List α} {l₂ : List β}, List.Forall₂ R l₁ l₂ →
      ∀ b ∈ l₂, ∃ a ∈ l₁, R a b := by
  intro l₁ l₂ h
  induction h with
  | nil => intro b hb; simp at hb
  | cons hab _ ih =>
    intro b hb
    rcases List.mem_cons.mp hb with rfl | hb2
    · exact ⟨_, List.mem_cons_self _ _, hab⟩
    · obtain ⟨a, ha, hr⟩ := ih b hb2
      exact ⟨a, List.mem_cons_of_mem _ ha, hr⟩

theorem forall₂_exists_right {R : α → β → Prop} :
    ∀ {l₁ : List α} {l₂ : List β}, List.Forall₂ R l₁ l₂ →
      ∀ a ∈ l₁, ∃ b ∈ l₂, R a b := by
  intro l₁ l₂ h
  induction h with
  | nil => intro a ha; simp at ha
  | cons hab _ ih =>
    intro a ha
    rcases List.mem_cons.mp ha with rfl | ha2
    · exact ⟨_, List.mem_cons_self _ _, hab⟩
    · obtain ⟨b, hb, hr⟩ := ih a ha2
      exact ⟨b, List.mem_cons_of_mem _ hb, hr⟩

theorem forall₂_mem_left {R : α → β → Prop} :
    ∀ {l₁ : List α} {l₂ : List β}, List.Forall₂ R l₁ l₂ →
      List.Forall₂ (fun a b => R a b ∧ a ∈ l₁) l₁ l₂ := by
  intro l₁ l₂ h
  induction h with
  | nil => exact List.Forall₂.nil
  | cons hab htail ih =>
    refine List.Forall₂.cons ⟨hab, List.mem_cons_self _ _⟩ ?_
    exact ih.imp (fun _ _ hx => ⟨hx.1, List.mem_cons_of_mem _ hx.2⟩)

theorem forall₂_pairwise_transfer {R : α → β → Prop} {S : α → α → Prop}
    {T : β → β → Prop}
    (hcomp : ∀ a a' b b', R a b → R a' b' → S a a' → T b b') :
    ∀ {l₁ : List α} {l₂ : List β}, List.Forall₂ R l₁ l₂ →
      l₁.Pairwise S → l₂.Pairwise T := by
  intro l₁ l₂ h
  induction h with
  | nil => intro _; exact List.Pairwise.nil
  | cons hab htail ih =>
    intro hpw
    obtain ⟨hhd, htl⟩ := List.pairwise_cons.mp hpw
    refine List.pairwise_cons.mpr ⟨?_, ih htl⟩
    intro b' hb'
    obtain ⟨a', ha', hr'⟩ := forall₂_exists_left htail b' hb'
    exact hcomp _ _ _ _ hab hr' (hhd a' ha')

/-- Specification of `sort_by_score(xs)[-1]`: a max-score member. -/
theorem bestOfRun_spec {xs : List Field} {m : Field}
    (h : bestOfRun xs = .ok m) :
    m ∈ xs ∧ ∃ sm, m.score = some sm ∧
      ∀ f ∈ xs, ∃ sf, f.score = some sf ∧ sf ≤ sm := by
  unfold bestOfRun at h
  split at h
  · exact absurd h (by simp)
  · rename_i s hs
    split at h
    · exact absurd h (by simp)
    · rename_i m' hl
      cases h
      exact sort_by_score_getLast_max hs hl

/-- Specification of the multi-value (`_addrline`) policy: one output
entry per distinct value, each a max-score representative. -/
theorem deduplicate_multi_value_spec {group out : List Field}
    (h : deduplicate_multi_value_field group = .ok out) :
    (∀ m ∈ out, m ∈ group ∧ ∃ vm sm, m.value = some vm ∧
      m.score = some sm ∧
      ∀ f ∈ group, f.value = some vm →
        ∃ sf, f.score = some sf ∧ sf ≤ sm) ∧
    (out.Pairwise (fun m1 m2 => m1.value ≠ m2.value)) ∧
    (∀ f ∈ group, ∃ m ∈ out, m.value = f.value) := by
  unfold deduplicate_multi_value_field at h
  cases hg : group_by_key Field.value group with
  | error e => rw [hg] at h; exact absurd h (by simp)
  | ok gs =>
    rw [hg] at h
    obtain ⟨hsound1, hsound2, hsound3, _⟩ := group_by_key_sound hg
    have hinj := group_by_key_key_injective hg
    have hfa := mapE_ok_forall₂ h
    refine ⟨?_, ?_, ?_⟩
    · -- membership and maximality
      intro m hm
      obtain ⟨p, hp, hpm⟩ := forall₂_exists_left hfa m hm
      obtain ⟨hm2, sm, hsm, hmax⟩ := bestOfRun_spec hpm
      obtain ⟨hmem, hval⟩ := hsound1 p hp m hm2
      refine ⟨hmem, p.1, sm, hval, hsm, ?_⟩
      intro f hf hfv
      obtain ⟨q, hq, hfq⟩ := hsound2 f hf
      have hfval := (hsound1 q hq f hfq).2
      have hpq : p = q := hinj p hp q hq (by
        rw [hfval] at hfv
        exact (Option.some.inj hfv).symm)
      exact hmax f (hpq ▸ hfq)
    · -- distinct values
      have hpw : gs.Pairwise (fun p q => p.1 < q.1) :=
        List.pairwise_map.mp hsound3
      refine forall₂_pairwise_transfer ?_ (forall₂_mem_left hfa) hpw
      rintro p q m1 m2 ⟨hpm, hp⟩ ⟨hqm, hq⟩ hlt
      have h1 := (hsound1 p hp m1 (bestOfRun_spec hpm).1).2
      have h2 := (hsound1 q hq m2 (bestOfRun_spec hqm).1).2
      rw [h1, h2]
      intro hcontra
      exact absurd (Option.some.inj hcontra) (ne_of_lt hlt)
    · -- covering
      intro f hf
      obtain ⟨p, hp, hfp⟩ := hsound2 f hf
      obtain ⟨m, hm, hpm⟩ := forall₂_exists_right hfa p hp
      have h1 := (hsound1 p hp m (bestOfRun_spec hpm).1).2
      have h2 := (hsound1 p hp f hfp).2
      exact ⟨m, hm, by rw [h1, h2]⟩

/-- Specification of the single-value policy: the output is one
max-score member of the group. -/
theorem deduplicate_single_value_spec {group out : List Field}
    (h : deduplicate_single_value_field group = .ok out) :
    ∃ m, out = [m] ∧ m ∈ group ∧ ∃ sm, m.score = some sm ∧
      ∀ f ∈ group, ∃ sf, f.score = some sf ∧ sf ≤ sm := by
  unfold deduplicate_single_value_field at h
  split at h
  · exact absurd h (by simp)
  · rename_i m hb
    cases h
    obtain ⟨h1, h2⟩ := bestOfRun_spec hb
    exact ⟨m, rfl, h1, h2⟩

theorem withContent_name (f : Field) (c : List Field) :
    (f.withContent c).name = f.name := by cases f; rfl

theorem withContent_title (f : Field) (c : List Field) :
    (f.withContent c).title = f.title := by cases f; rfl

theorem withContent_value (f : Field) (c : List Field) :
    (f.withContent c).value = f.value := by cases f; rfl

theorem withContent_score (f : Field) (c : List Field) :
    (f.withContent c).score = f.score := by cases f; rfl

theorem withContent_content (f : Field) (c : List Field) :
    (f.withContent c).content = some c := by cases f; rfl

theorem deduplicate_content_ok {f m : Field}
    (h : deduplicate_content f = .ok m) :
    ∃ c c2, f.content = some c ∧ deduplicate_fields c = .ok c2 ∧
      m = f.withContent c2 := by
  unfold deduplicate_content at h
  split at h
  · exact absurd h (by simp)
  · rename_i c hc
    split at h
    · exact absurd h (by simp)
    · rename_i c2 hc2
      cases h
      exact ⟨c, c2, hc, hc2, rfl⟩

/-- `deduplicate_fields` unfolded in terms of `deduplicate_group`. -/
theorem deduplicate_fields_eq (fields : List Field) :
    deduplicate_fields fields =
      match group_by_key Field.name fields with
      | .error e => .error e
      | .ok groups =>
        dedupAssemble (mapE (fun p => deduplicate_group p.1 p.2) groups) := by
  rw [deduplicate_fields]
  cases hg : group_by_key Field.name fields with
  | error e => rfl
  | ok groups =>
    simp only
    congr 1
    refine Eq.trans (mapE_congr (g := fun p : {x // x ∈ groups} =>
      deduplicate_group p.1.1 p.1.2) ?_)
      (mapE_attach groups (fun x => deduplicate_group x.1 x.2))
    intro p _
    simp only [deduplicate_group]
    by_cases h1 : p.1.1 = "tax_details".toList
    · rw [if_pos h1, if_pos h1]
      refine Eq.trans (mapE_congr (g := fun q : {x // x ∈ p.1.2} =>
        deduplicate_content q.1) ?_) (mapE_attach p.1.2 deduplicate_content)
      intro q _
      simp only [deduplicate_content]
      cases hq : q.1.content with
      | none => rfl
      | some c => rfl
    · rw [if_neg h1, if_neg h1]

theorem deduplicate_fields_nil : deduplicate_fields [] = .ok [] := by
  rw [deduplicate_fields_eq]
  rfl

/-! ## Which exceptions `_deduplicate_fields` can raise, and when

`_deduplicate_fields` is partial: it raises `KeyError` exactly when a
dict key it reads is missing.  The `IndexError` branch (`[-1]` on an
empty list) is unreachable because `groupby` only yields nonempty
groups. -/

theorem mapE_error_exists {f : α → Except PyErr β} :
    ∀ {l : List α} {e : PyErr}, mapE f l = .error e →
      ∃ x ∈ l, f x = .error e := by
  intro l
  induction l with
  | nil => intro e h; simp [mapE] at h
  | cons a l ih =>
    intro e h
    simp only [mapE] at h
    cases hfa : f a with
    | error e2 =>
      rw [hfa] at h
      cases h
      exact ⟨a, List.mem_cons_self _ _, hfa⟩
    | ok b =>
      rw [hfa] at h
      cases hl : mapE f l with
      | error e2 =>
        rw [hl] at h
        cases h
        obtain ⟨x, hx, hfx⟩ := ih hl
        exact ⟨x, List.mem_cons_of_mem _ hx, hfx⟩
      | ok bs => rw [hl] at h; exact absurd h (by simp)

theorem mapE_ok_forall {f : α → Except PyErr β} {l : List α} {ys : List β}
    (h : mapE f l = .ok ys) : ∀ x ∈ l, ∃ y ∈ ys, f x = .ok y :=
  forall₂_exists_right (mapE_ok_forall₂ h)

theorem mapE_ok_of_forall {f : α → Except PyErr β} :
    ∀ {l : List α}, (∀ x ∈ l, ∃ y, f x = .ok y) →
      ∃ ys, mapE f l = .ok ys := by
  intro l
  induction l with
  | nil => intro _; exact ⟨[], rfl⟩
  | cons a l ih =>
    intro h
    obtain ⟨b, hb⟩ := h a (List.mem_cons_self _ _)
    obtain ⟨bs, hbs⟩ := ih (fun x hx => h x (List.mem_cons_of_mem _ hx))
    exact ⟨b :: bs, by simp only [mapE, hb, hbs]⟩

theorem keyOf_error {key : Field → Option κ} {f : Field} {e : PyErr}
    (h : keyOf key f = .error e) : e = .keyError ∧ key f = none := by
  unfold keyOf at h
  cases hk : key f with
  | none => rw [hk] at h; cases h; exact ⟨rfl, rfl⟩
  | some k => rw [hk] at h; exact absurd h (by simp)

theorem mapE_keyOf_error {key : Field → Option κ} {values : List Field}
    {e : PyErr} (h : mapE (keyOf key) values = .error e) : e = .keyError := by
  obtain ⟨x, _, hx⟩ := mapE_error_exists h
  exact (keyOf_error hx).1

theorem mapE_keyOf_ok_of_present {key : Field → Option κ}
    {values : List Field} (h : ∀ f ∈ values, ∃ k, key f = some k) :
    ∃ keyed, mapE (keyOf key) values = .ok keyed := by
  refine mapE_ok_of_forall ?_
  intro f hf
  obtain ⟨k, hk⟩ := h f hf
  exact ⟨(k, f), by simp only [keyOf, hk]⟩

theorem group_by_key_error [LinearOrder κ] {key : Field → Option κ}
    {values : List Field} {e : PyErr}
    (h : group_by_key key values = .error e) : e = .keyError := by
  unfold group_by_key at h
  cases hm : mapE (keyOf key) values with
  | error e2 => rw [hm] at h; cases h; exact mapE_keyOf_error hm
  | ok keyed => rw [hm] at h; exact absurd h (by simp)

theorem group_by_key_ok_of_present [LinearOrder κ] {key : Field → Option κ}
    {values : List Field} (h : ∀ f ∈ values, ∃ k, key f = some k) :
    ∃ gs, group_by_key key values = .ok gs := by
  obtain ⟨keyed, hk⟩ := mapE_keyOf_ok_of_present h
  exact ⟨groupRuns (keyed.insertionSort keyLE), by
    unfold group_by_key; rw [hk]⟩

theorem group_by_key_keys [LinearOrder κ] {key : Field → Option κ}
    {values : List Field} {gs : List (κ × List Field)}
    (h : group_by_key key values = .ok gs) :
    ∀ f ∈ values, ∃ k, key f = some k := by
  unfold group_by_key at h
  cases hm : mapE (keyOf key) values with
  | error e => rw [hm] at h; exact absurd h (by simp)
  | ok keyed =>
    intro f hf
    obtain ⟨k, _, hk⟩ := exists_pair_of_mem hm hf
    exact ⟨k, hk⟩

theorem sort_by_score_error {values : List Field} {e : PyErr}
    (h : sort_by_score values = .error e) : e = .keyError := by
  unfold sort_by_score at h
  cases hm : mapE (keyOf Field.score) values with
  | error e2 => rw [hm] at h; cases h; exact mapE_keyOf_error hm
  | ok keyed => rw [hm] at h; exact absurd h (by simp)

theorem sort_by_score_ok_of_present {values : List Field}
    (h : ∀ f ∈ values, ∃ s, f.score = some s) :
    ∃ s, sort_by_score values = .ok s := by
  obtain ⟨keyed, hk⟩ := mapE_keyOf_ok_of_present h
  exact ⟨(keyed.insertionSort keyLE).map (·.2), by
    unfold sort_by_score; rw [hk]⟩

theorem bestOfRun_error {xs : List Field} {e : PyErr}
    (h : bestOfRun xs = .error e) (hne : xs ≠ []) : e = .keyError := by
  unfold bestOfRun at h
  split at h
  · rename_i e2 hs
    cases h
    exact sort_by_score_error hs
  · rename_i s hs
    split at h
    · rename_i hl
      exfalso
      have hnil : s = [] := List.getLast?_eq_none_iff.mp hl
      subst hnil
      exact hne (sort_by_score_perm hs).nil_eq.symm
    · exact absurd h (by simp)

theorem bestOfRun_ok_of_present {xs : List Field} (hne : xs ≠ [])
    (h : ∀ f ∈ xs, ∃ s, f.score = some s) :
    ∃ m, bestOfRun xs = .ok m := by
  obtain ⟨s, hs⟩ := sort_by_score_ok_of_present h
  have hsne : s ≠ [] := by
    intro hnil
    subst hnil
    exact hne (sort_by_score_perm hs).nil_eq.symm
  obtain ⟨m, hm⟩ := Option.isSome_iff_exists.mp
    (List.getLast?_isSome.mpr hsne)
  exact ⟨m, by unfold bestOfRun; simp only [hs, hm]⟩

theorem bestOfRun_scores {xs : List Field} {m : Field}
    (h : bestOfRun xs = .ok m) : ∀ f ∈ xs, ∃ s, f.score = some s := by
  unfold bestOfRun at h
  split at h
  · exact absurd h (by simp)
  · rename_i s hs
    exact fun f hf => sort_by_score_scores hs f hf

/-- A failing `deduplicate_group` on a nonempty group raises
`KeyError`, either directly or out of the recursive call on some
`tax_details` item's `content`. -/
theorem deduplicate_group_error {nm : Str} {group : List Field} {e : PyErr}
    (hne : group ≠ []) (h : deduplicate_group nm group = .error e) :
    e = .keyError ∨ ∃ item ∈ group, ∃ c, item.content = some c ∧
      deduplicate_fields c = .error e := by
  unfold deduplicate_group at h
  by_cases h1 : nm = "tax_details".toList
  · rw [if_pos h1] at h
    obtain ⟨item, hitem, hx⟩ := mapE_error_exists h
    unfold deduplicate_content at hx
    split at hx
    · cases hx
      exact Or.inl rfl
    · rename_i c hc
      split at hx
      · rename_i e2 hd
        cases hx
        exact Or.inr ⟨item, hitem, c, hc, hd⟩
      · exact absurd hx (by simp)
  · rw [if_neg h1] at h
    by_cases h2 : addrline nm = true
    · rw [if_pos h2] at h
      unfold deduplicate_multi_value_field at h
      split at h
      · rename_i e2 hg
        cases h
        exact Or.inl (group_by_key_error hg)
      · rename_i gs hg
        obtain ⟨p, hp, hbp⟩ := mapE_error_exists h
        exact Or.inl (bestOfRun_error hbp ((group_by_key_sound hg).2.2.2 p hp))
    · rw [if_neg h2] at h
      unfold deduplicate_single_value_field at h
      split at h
      · rename_i e2 hb
        cases h
        exact Or.inl (bestOfRun_error hb hne)
      · exact absurd h (by simp)

/-- Every exception `_deduplicate_fields` raises is a `KeyError`: the
`IndexError` branch is unreachable. -/
theorem dedup_errors_are_keyError : ∀ {fs : List Field} {e : PyErr},
    deduplicate_fields fs = .error e → e = .keyError := by
  suffices H : ∀ n (fs : List Field), sizeOf fs ≤ n → ∀ e : PyErr,
      deduplicate_fields fs = .error e → e = .keyError by
    intro fs e h
    exact H (sizeOf fs) fs le_rfl e h
  intro n
  induction n with
  | zero =>
    intro fs hle
    exact absurd hle (by cases fs <;> simp)
  | succ n ih =>
    intro fs hle e h
    rw [deduplicate_fields_eq] at h
    split at h
    · rename_i e2 hg
      cases h
      exact group_by_key_error hg
    · rename_i gs hg
      unfold dedupAssemble at h
      split at h
      · rename_i e2 hm
        cases h
        obtain ⟨p, hp, hpe⟩ := mapE_error_exists hm
        have hne := (group_by_key_sound hg).2.2.2 p hp
        rcases deduplicate_group_error hne hpe with hk |
          ⟨item, hitem, c, hc, hd⟩
        · exact hk
        · have hmem : item ∈ fs := ((group_by_key_sound hg).1 p hp item hitem).1
          have h1 := List.sizeOf_lt_of_mem hmem
          have h2 := sizeOf_content_lt hc
          exact ih c (by omega) e hd
      · exact absurd h (by simp)

/-- When `_deduplicate_fields` succeeds, every key it would have read
was present: names everywhere, scores in every non-`tax_details`
group, values in every `_addrline` group, content in every
`tax_details` group. -/
theorem dedup_ok_keys {fs out : List Field}
    (h : deduplicate_fields fs = .ok out) :
    (∀ f ∈ fs, ∃ nm, f.name = some nm) ∧
    ∀ gs, group_by_key Field.name fs = .ok gs → ∀ p ∈ gs,
      (p.1 ≠ "tax_details".toList → ∀ f ∈ p.2, ∃ s, f.score = some s) ∧
      (addrline p.1 = true → ∀ f ∈ p.2, ∃ v, f.value = some v) ∧
      (p.1 = "tax_details".toList → ∀ f ∈ p.2, ∃ c, f.content = some c) := by
  rw [deduplicate_fields_eq] at h
  split at h
  · exact absurd h (by simp)
  · rename_i gs0 hg0
    refine ⟨group_by_key_keys hg0, ?_⟩
    intro gs hg p hp
    have hgs : gs0 = gs := by
      rw [hg0] at hg
      exact Except.ok.inj hg
    subst hgs
    unfold dedupAssemble at h
    split at h
    · exact absurd h (by simp)
    · rename_i parts hm
      obtain ⟨o, _, hgp⟩ := mapE_ok_forall hm p hp
      refine ⟨?_, ?_, ?_⟩
      · intro hnm f hf
        unfold deduplicate_group at hgp
        rw [if_neg hnm] at hgp
        by_cases h2 : addrline p.1 = true
        · rw [if_pos h2] at hgp
          unfold deduplicate_multi_value_field at hgp
          split at hgp
          · exact absurd hgp (by simp)
          · rename_i gs2 hg2
            obtain ⟨q, hq, hfq⟩ := (group_by_key_sound hg2).2.1 f hf
            obtain ⟨m2, _, hbq⟩ := mapE_ok_forall hgp q hq
            exact bestOfRun_scores hbq f hfq
        · rw [if_neg h2] at hgp
          unfold deduplicate_single_value_field at hgp
          split at hgp
          · exact absurd hgp (by simp)
          · rename_i m hb
            exact bestOfRun_scores hb f hf
      · intro haddr f hf
        have hnm : p.1 ≠ "tax_details".toList := by
          intro hc
          rw [hc] at haddr
          exact absurd haddr (by decide)
        unfold deduplicate_group at hgp
        rw [if_neg hnm, if_pos haddr] at hgp
        unfold deduplicate_multi_value_field at hgp
        split at hgp
        · exact absurd hgp (by simp)
        · rename_i gs2 hg2
          exact group_by_key_keys hg2 f hf
      · intro htax f hf
        unfold deduplicate_group at hgp
        rw [if_pos htax] at hgp
        obtain ⟨m2, _, hdc⟩ := mapE_ok_forall hgp f hf
        obtain ⟨c, c2, hc, _, _⟩ := deduplicate_content_ok hdc
        exact ⟨c, hc⟩

/-- All the dict keys `_deduplicate_fields` reads are present,
recursively: the field has a `name`; a `tax_details` field has a
`content` of well-keyed sub-fields; any other field has a `score`, and
a `value` too when its name contains `_addrline`. -/
inductive FieldWellKeyed : Field → Prop where
  | taxDetails (f : Field) (c : List Field) :
      f.name = some "tax_details".toList → f.content = some c →
      (∀ g ∈ c, FieldWellKeyed g) → FieldWellKeyed f
  | leaf (f : Field) (nm : Str) :
      f.name = some nm → nm ≠ "tax_details".toList →
      (∃ s, f.score = some s) →
      (addrline nm = true → ∃ v, f.value = some v) →
      FieldWellKeyed f

/-- Under the recursive all-keys-present precondition, every error
branch of `_deduplicate_fields` is unreachable: the function is
total. -/
theorem dedup_ok_of_wellKeyed : ∀ {fs : List Field},
    (∀ f ∈ fs, FieldWellKeyed f) →
    ∃ out, deduplicate_fields fs = .ok out := by
  suffices H : ∀ n (fs : List Field), sizeOf fs ≤ n →
      (∀ f ∈ fs, FieldWellKeyed f) →
      ∃ out, deduplicate_fields fs = .ok out by
    intro fs h
    exact H (sizeOf fs) fs le_rfl h
  intro n
  induction n with
  | zero =>
    intro fs hle
    exact absurd hle (by cases fs <;> simp)
  | succ n ih =>
    intro fs hle hwk
    have hnames : ∀ f ∈ fs, ∃ k, Field.name f = some k := by
      intro f hf
      cases hwk f hf with
      | taxDetails f c hn hc hrec => exact ⟨_, hn⟩
      | leaf f nm hn hne hs hv => exact ⟨nm, hn⟩
    obtain ⟨gs, hg⟩ := group_by_key_ok_of_present hnames
    have hgroups : ∀ p ∈ gs, ∃ o, deduplicate_group p.1 p.2 = .ok o := by
      intro p hp
      have hsound := group_by_key_sound hg
      have hne := hsound.2.2.2 p hp
      by_cases h1 : p.1 = "tax_details".toList
      · unfold deduplicate_group
        rw [if_pos h1]
        refine mapE_ok_of_forall ?_
        intro item hitem
        obtain ⟨hmem, hname⟩ := hsound.1 p hp item hitem
        cases hwk item hmem with
        | leaf item nm hn hne2 hs hv =>
          rw [hn] at hname
          exact absurd ((Option.some.inj hname).trans h1) hne2
        | taxDetails item c hn hc hrec =>
          have hsz1 := List.sizeOf_lt_of_mem hmem
          have hsz2 := sizeOf_content_lt hc
          obtain ⟨c2, hc2⟩ := ih c (by omega) hrec
          exact ⟨item.withContent c2, by
            unfold deduplicate_content
            simp only [hc, hc2]⟩
      · have hscores : ∀ f ∈ p.2, ∃ s, f.score = some s := by
          intro f hf
          obtain ⟨hmem, hname⟩ := hsound.1 p hp f hf
          cases hwk f hmem with
          | taxDetails f c hn hc hrec =>
            rw [hn] at hname
            exact absurd (Option.some.inj hname) (fun hx => h1 hx.symm)
          | leaf f nm hn hne2 hs hv => exact hs
        unfold deduplicate_group
        rw [if_neg h1]
        by_cases h2 : addrline p.1 = true
        · rw [if_pos h2]
          have hvalues : ∀ f ∈ p.2, ∃ v, Field.value f = some v := by
            intro f hf
            obtain ⟨hmem, hname⟩ := hsound.1 p hp f hf
            cases hwk f hmem with
            | taxDetails f c hn hc hrec =>
              rw [hn] at hname
              exact absurd (Option.some.inj hname) (fun hx => h1 hx.symm)
            | leaf f nm hn hne2 hs hv =>
              rw [hn] at hname
              exact hv ((Option.some.inj hname) ▸ h2)
          unfold deduplicate_multi_value_field
          obtain ⟨gs2, hg2⟩ := group_by_key_ok_of_present hvalues
          rw [hg2]
          refine mapE_ok_of_forall ?_
          intro q hq
          refine bestOfRun_ok_of_present ((group_by_key_sound hg2).2.2.2 q hq)
            ?_
          intro f hf
          exact hscores f ((group_by_key_sound hg2).1 q hq f hf).1
        · rw [if_neg h2]
          unfold deduplicate_single_value_field
          obtain ⟨m, hm⟩ := bestOfRun_ok_of_present hne hscores
          exact ⟨[m], by simp only [hm]⟩
    obtain ⟨parts, hparts⟩ := mapE_ok_of_forall hgroups
    refine ⟨parts.flatten, ?_⟩
    rw [deduplicate_fields_eq]
    simp only [hg, dedupAssemble, hparts]

/-! ## Regrouping a deduplicated list

The output of `_deduplicate_fields` is a concatenation of nonempty
per-name chunks whose keys are strictly increasing.  Grouping such a
concatenation by key recovers exactly the chunks — the backbone of the
idempotence proof. -/

/-- The key-decorated concatenation of a chunk list. -/
def keyedChunks (gs : List (κ × List Field)) : List (κ × Field) :=
  (gs.map (fun p => p.2.map (fun m => (p.1, m)))).flatten

theorem mapE_append_ok {f : α → Except PyErr β} :
    ∀ {l₁ l₂ : List α} {y₁ y₂ : List β},
      mapE f l₁ = .ok y₁ → mapE f l₂ = .ok y₂ →
      mapE f (l₁ ++ l₂) = .ok (y₁ ++ y₂) := by
  intro l₁
  induction l₁ with
  | nil =>
    intro l₂ y₁ y₂ h1 h2
    simp only [mapE] at h1
    cases h1
    simpa using h2
  | cons a l ih =>
    intro l₂ y₁ y₂ h1 h2
    simp only [mapE] at h1
    cases hfa : f a with
    | error e => rw [hfa] at h1; exact absurd h1 (by simp)
    | ok b =>
      rw [hfa] at h1
      cases hl : mapE f l with
      | error e => rw [hl] at h1; exact absurd h1 (by simp)
      | ok bs =>
        rw [hl] at h1
        cases h1
        show mapE f (a :: (l ++ l₂)) = .ok (b :: (bs ++ y₂))
        simp only [mapE, hfa, ih hl h2]

theorem mapE_keyOf_chunk {key : Field → Option κ} {k : κ} :
    ∀ {chunk : List Field}, (∀ m ∈ chunk, key m = some k) →
      mapE (keyOf key) chunk = .ok (chunk.map (fun m => (k, m))) := by
  intro chunk
  induction chunk with
  | nil => intro _; rfl
  | cons m chunk ih =>
    intro h
    simp only [mapE, keyOf, h m (List.mem_cons_self _ _),
      ih (fun x hx => h x (List.mem_cons_of_mem _ hx)), List.map_cons]

theorem mem_keyedChunks {gs : List (κ × List Field)} {k : κ} {m : Field} :
    (k, m) ∈ keyedChunks gs → ∃ p ∈ gs, p.1 = k ∧ m ∈ p.2 := by
  intro h
  unfold keyedChunks at h
  obtain ⟨l, hl, hm⟩ := List.mem_flatten.mp h
  obtain ⟨p, hp, hpl⟩ := List.mem_map.mp hl
  subst hpl
  obtain ⟨m2, hm2, heq⟩ := List.mem_map.mp hm
  obtain ⟨h1, h2⟩ := Prod.mk.inj heq.symm
  exact ⟨p, hp, h1.symm, h2 ▸ hm2⟩

theorem pairwise_const_key [LinearOrder κ] {k : κ} (l : List Field) :
    (l.map (fun m => (k, m))).Pairwise (keyLE (κ := κ)) := by
  rw [List.pairwise_map]
  exact List.pairwise_of_forall (fun _ _ => le_refl k)

theorem keyedChunks_sorted [LinearOrder κ] :
    ∀ {gs : List (κ × List Field)},
      ((gs.map Prod.fst).Pairwise (· < ·)) →
      (keyedChunks gs).Pairwise (keyLE (κ := κ)) := by
  intro gs
  induction gs with
  | nil => intro _; exact List.Pairwise.nil
  | cons p gs ih =>
    intro hpw
    simp only [List.map_cons] at hpw
    obtain ⟨hhd, htl⟩ := List.pairwise_cons.mp hpw
    show ((p.2.map (fun m => (p.1, m))) ++ keyedChunks gs).Pairwise keyLE
    rw [List.pairwise_append]
    refine ⟨pairwise_const_key p.2, ih htl, ?_⟩
    rintro ⟨k1, m1⟩ h1 ⟨k2, m2⟩ h2
    obtain ⟨m0, _, heq⟩ := List.mem_map.mp h1
    obtain ⟨hk1, _⟩ := Prod.mk.inj heq
    obtain ⟨q, hq, hqk, _⟩ := mem_keyedChunks h2
    show k1 ≤ k2
    rw [← hk1, ← hqk]
    exact le_of_lt (hhd q.1 (List.mem_map_of_mem Prod.fst hq))

theorem groupRuns_cons [DecidableEq κ] (k : κ) (a : α)
    (rest : List (κ × α)) :
    groupRuns ((k, a) :: rest) =
      match groupRuns rest with
      | [] => [(k, [a])]
      | (k2, g) :: gs =>
        if k = k2 then (k, a :: g) :: gs
        else (k, [a]) :: (k2, g) :: gs := rfl

theorem groupRuns_head [DecidableEq κ] (q : κ × α) (rest : List (κ × α)) :
    ∃ g gs', groupRuns (q :: rest) = (q.1, g) :: gs' := by
  obtain ⟨k0, a0⟩ := q
  rw [groupRuns_cons]
  cases hr : groupRuns rest with
  | nil => exact ⟨[a0], [], rfl⟩
  | cons q2 gs =>
    obtain ⟨k2, g2⟩ := q2
    by_cases hk : k0 = k2
    · refine ⟨a0 :: g2, gs, ?_⟩
      show (if k0 = k2 then (k0, a0 :: g2) :: gs
        else (k0, [a0]) :: (k2, g2) :: gs) = (k0, a0 :: g2) :: gs
      rw [if_pos hk]
    · refine ⟨[a0], (k2, g2) :: gs, ?_⟩
      show (if k0 = k2 then (k0, a0 :: g2) :: gs
        else (k0, [a0]) :: (k2, g2) :: gs) = (k0, [a0]) :: (k2, g2) :: gs
      rw [if_neg hk]

theorem groupRuns_chunk_append [DecidableEq κ] {k : κ} :
    ∀ {chunk : List α} {rest : List (κ × α)}, chunk ≠ [] →
      (∀ hd, rest.head? = some hd → hd.1 ≠ k) →
      groupRuns (chunk.map (fun a => (k, a)) ++ rest) =
        (k, chunk) :: groupRuns rest := by
  intro chunk
  induction chunk with
  | nil => intro rest h _; exact absurd rfl h
  | cons a chunk ih =>
    intro rest _ hhd
    cases chunk with
    | nil =>
      show groupRuns ((k, a) :: rest) = (k, [a]) :: groupRuns rest
      cases rest with
      | nil => rfl
      | cons q rest' =>
        have hne : q.1 ≠ k := hhd q rfl
        obtain ⟨g, gs', hg⟩ := groupRuns_head q rest'
        rw [groupRuns_cons, hg]
        show (if k = q.1 then (k, a :: g) :: gs'
          else (k, [a]) :: (q.1, g) :: gs') =
          (k, [a]) :: (q.1, g) :: gs'
        rw [if_neg (fun he => hne he.symm)]
    | cons b chunk' =>
      have ih2 := @ih rest (by simp) hhd
      show groupRuns ((k, a) ::
        ((b :: chunk').map (fun x => (k, x)) ++ rest)) =
        (k, a :: b :: chunk') :: groupRuns rest
      rw [groupRuns_cons, ih2]
      show (if k = k then (k, a :: b :: chunk') :: groupRuns rest
        else (k, [a]) :: (k, b :: chunk') :: groupRuns rest) =
        (k, a :: b :: chunk') :: groupRuns rest
      rw [if_pos rfl]

theorem groupRuns_keyedChunks [LinearOrder κ] :
    ∀ {gs : List (κ × List Field)},
      ((gs.map Prod.fst).Pairwise (· < ·)) →
      (∀ p ∈ gs, p.2 ≠ []) →
      groupRuns (keyedChunks gs) = gs := by
  intro gs
  induction gs with
  | nil => intro _ _; rfl
  | cons p gs ih =>
    intro hpw hne
    obtain ⟨k, chunk⟩ := p
    simp only [List.map_cons] at hpw
    obtain ⟨hhd, htl⟩ := List.pairwise_cons.mp hpw
    show groupRuns (chunk.map (fun m => (k, m)) ++ keyedChunks gs) =
      (k, chunk) :: gs
    rw [groupRuns_chunk_append
      (hne (k, chunk) (List.mem_cons_self _ _)) ?_,
      ih htl (fun q hq => hne q (List.mem_cons_of_mem _ hq))]
    intro hd hhead
    cases gs with
    | nil => simp [keyedChunks] at hhead
    | cons p' gs'' =>
      have hpne : p'.2 ≠ [] :=
        hne p' (List.mem_cons_of_mem _ (List.mem_cons_self _ _))
      cases hp2 : p'.2 with
      | nil => exact absurd hp2 hpne
      | cons m ms =>
        have : keyedChunks (p' :: gs'') =
            (m :: ms).map (fun x => (p'.1, x)) ++ keyedChunks gs'' := by
          show (p'.2.map (fun x => (p'.1, x))) ++ keyedChunks gs'' = _
          rw [hp2]
        rw [this] at hhead
        simp only [List.map_cons, List.cons_append, List.head?_cons,
          Option.some.injEq] at hhead
        have hk : k < p'.1 :=
          hhd p'.1 (List.mem_map_of_mem Prod.fst (List.mem_cons_self _ _))
        rw [← hhead]
        exact fun he => absurd he.symm (ne_of_lt hk)

/-- Grouping the concatenation of nonempty, correctly-keyed chunks
with strictly increasing keys recovers exactly the chunks. -/
theorem group_by_key_of_chunks [LinearOrder κ] {key : Field → Option κ} :
    ∀ {gs : List (κ × List Field)},
      (∀ p ∈ gs, ∀ m ∈ p.2, key m = some p.1) →
      (∀ p ∈ gs, p.2 ≠ []) →
      ((gs.map Prod.fst).Pairwise (· < ·)) →
      group_by_key key ((gs.map Prod.snd).flatten) = .ok gs := by
  have hmap : ∀ {gs : List (κ × List Field)},
      (∀ p ∈ gs, ∀ m ∈ p.2, key m = some p.1) →
      mapE (keyOf key) ((gs.map Prod.snd).flatten) =
        .ok (keyedChunks gs) := by
    intro gs
    induction gs with
    | nil => intro _; rfl
    | cons p gs ih =>
      intro h
      show mapE (keyOf key) (p.2 ++ (gs.map Prod.snd).flatten) =
        .ok ((p.2.map (fun m => (p.1, m))) ++ keyedChunks gs)
      exact mapE_append_ok
        (mapE_keyOf_chunk (h p (List.mem_cons_self _ _)))
        (ih (fun q hq => h q (List.mem_cons_of_mem _ hq)))
  intro gs hkeys hne hpw
  unfold group_by_key
  rw [hmap hkeys]
  show Except.ok (groupRuns ((keyedChunks gs).insertionSort keyLE)) =
    Except.ok gs
  rw [List.Sorted.insertionSort_eq (keyedChunks_sorted hpw)]
  rw [groupRuns_keyedChunks hpw hne]

theorem withContent_withContent (f : Field) (c : List Field) :
    (f.withContent c).withContent c = f.withContent c := by
  cases f
  rfl

theorem bestOfRun_singleton {m : Field} {s : ℚ} (hs : m.score = some s) :
    bestOfRun [m] = .ok m := by
  unfold bestOfRun sort_by_score
  simp [mapE, keyOf, hs, List.insertionSort, List.orderedInsert]

theorem zip_singleton_flatten {R : κ → Field → Prop} :
    ∀ {ks : List κ} {l : List Field}, List.Forall₂ R ks l →
      (((List.zipWith (fun k m => (k, [m])) ks l).map
        Prod.snd).flatten) = l := by
  intro ks l hfa
  induction hfa with
  | nil => rfl
  | cons hk htail ih => simpa using ih

theorem zip_singleton_keyed {key : Field → Option κ} :
    ∀ {ks : List κ} {l : List Field},
      List.Forall₂ (fun k m => key m = some k) ks l →
      ∀ p ∈ List.zipWith (fun k m => (k, [m])) ks l,
        ∀ x ∈ p.2, key x = some p.1 := by
  intro ks l hfa
  induction hfa with
  | nil => intro p hp; simp at hp
  | cons hk htail ih =>
    intro p hp x hx
    rw [List.zipWith_cons_cons] at hp
    rcases List.mem_cons.mp hp with rfl | hp2
    · simp only [List.mem_singleton] at hx
      subst hx
      exact hk
    · exact ih p hp2 x hx

theorem zip_singleton_ne_nil {R : κ → Field → Prop} :
    ∀ {ks : List κ} {l : List Field}, List.Forall₂ R ks l →
      ∀ p ∈ List.zipWith (fun k m => (k, [m])) ks l, p.2 ≠ [] := by
  intro ks l hfa
  induction hfa with
  | nil => intro p hp; simp at hp
  | cons hk htail ih =>
    intro p hp
    rw [List.zipWith_cons_cons] at hp
    rcases List.mem_cons.mp hp with rfl | hp2
    · simp
    · exact ih p hp2

theorem zip_singleton_keys {R : κ → Field → Prop} :
    ∀ {ks : List κ} {l : List Field}, List.Forall₂ R ks l →
      (List.zipWith (fun k m => (k, [m])) ks l).map Prod.fst = ks := by
  intro ks l hfa
  induction hfa with
  | nil => rfl
  | cons hk htail ih => simpa using ih

/-- Grouping a list with strictly increasing keys yields singleton
chunks, one per element, in order. -/
theorem group_by_key_strict [LinearOrder κ] {key : Field → Option κ}
    {ks : List κ} {l : List Field}
    (hfa : List.Forall₂ (fun k m => key m = some k) ks l)
    (hpw : ks.Pairwise (· < ·)) :
    group_by_key key l = .ok (List.zipWith (fun k m => (k, [m])) ks l) := by
  have h1 := zip_singleton_flatten hfa
  have := group_by_key_of_chunks (zip_singleton_keyed hfa)
    (zip_singleton_ne_nil hfa) (by rw [zip_singleton_keys hfa]; exact hpw)
  rw [h1] at this
  exact this

theorem deduplicate_group_names {nm : Str} {group o : List Field}
    (h : deduplicate_group nm group = .ok o)
    (hg : ∀ f ∈ group, f.name = some nm) :
    ∀ m ∈ o, m.name = some nm := by
  unfold deduplicate_group at h
  by_cases h1 : nm = "tax_details".toList
  · rw [if_pos h1] at h
    intro m hm
    obtain ⟨item, hitem, hdc⟩ := forall₂_exists_left (mapE_ok_forall₂ h) m hm
    obtain ⟨c, c2, hc, hc2, rfl⟩ := deduplicate_content_ok hdc
    rw [withContent_name]
    exact hg item hitem
  · rw [if_neg h1] at h
    by_cases h2 : addrline nm = true
    · rw [if_pos h2] at h
      intro m hm
      exact hg m ((deduplicate_multi_value_spec h).1 m hm).1
    · rw [if_neg h2] at h
      intro m hm
      obtain ⟨m2, rfl, hmem, _⟩ := deduplicate_single_value_spec h
      rw [List.mem_singleton.mp hm]
      exact hg m2 hmem

theorem deduplicate_group_ne_nil {nm : Str} {group o : List Field}
    (h : deduplicate_group nm group = .ok o) (hne : group ≠ []) :
    o ≠ [] := by
  unfold deduplicate_group at h
  by_cases h1 : nm = "tax_details".toList
  · rw [if_pos h1] at h
    have hlen := (mapE_ok_forall₂ h).length_eq
    intro ho
    subst ho
    simp only [List.length_nil] at hlen
    exact hne (List.length_eq_zero.mp hlen)
  · rw [if_neg h1] at h
    by_cases h2 : addrline nm = true
    · rw [if_pos h2] at h
      unfold deduplicate_multi_value_field at h
      split at h
      · exact absurd h (by simp)
      · rename_i gs2 hg2
        have hlen := (mapE_ok_forall₂ h).length_eq
        intro ho
        subst ho
        simp only [List.length_nil] at hlen
        have hgs2 : gs2 = [] := List.length_eq_zero.mp hlen
        subst hgs2
        cases hgr : group with
        | nil => exact hne hgr
        | cons f group' =>
          obtain ⟨p, hp, _⟩ := (group_by_key_sound hg2).2.1 f
            (hgr ▸ List.mem_cons_self _ _)
          simp at hp
    · rw [if_neg h2] at h
      obtain ⟨m2, rfl, _, _⟩ := deduplicate_single_value_spec h
      simp

theorem forall₂_bestOfRun_zip :
    ∀ {ks : List Str} {l : List Field},
      List.Forall₂ (fun k m => Field.value m = some k) ks l →
      (∀ m ∈ l, ∃ s, m.score = some s) →
      List.Forall₂ (fun (p : Str × List Field) m => bestOfRun p.2 = .ok m)
        (List.zipWith (fun k m => (k, [m])) ks l) l := by
  intro ks l hfa
  induction hfa with
  | nil => intro _; exact List.Forall₂.nil
  | cons hk htail ih =>
    intro hsc
    rename_i k m ks' l'
    rw [List.zipWith_cons_cons]
    obtain ⟨s, hs⟩ := hsc m (List.mem_cons_self _ _)
    exact List.Forall₂.cons (bestOfRun_singleton hs)
      (ih (fun x hx => hsc x (List.mem_cons_of_mem _ hx)))

/-- Per-group idempotence: re-deduplicating a group's output (under
the inner induction hypothesis for `tax_details` contents) returns it
unchanged. -/
theorem deduplicate_group_idem {nm : Str} {group o : List Field}
    (h : deduplicate_group nm group = .ok o)
    (IH : ∀ c c2 : List Field, (∃ item ∈ group, item.content = some c) →
      deduplicate_fields c = .ok c2 → deduplicate_fields c2 = .ok c2) :
    deduplicate_group nm o = .ok o := by
  unfold deduplicate_group at h ⊢
  by_cases h1 : nm = "tax_details".toList
  · rw [if_pos h1] at h ⊢
    refine forall₂_mapE_ok (List.forall₂_same.mpr ?_)
    intro m hm
    obtain ⟨item, hitem, hdc⟩ := forall₂_exists_left (mapE_ok_forall₂ h) m hm
    obtain ⟨c, c2, hc, hc2, rfl⟩ := deduplicate_content_ok hdc
    have hidem : deduplicate_fields c2 = .ok c2 :=
      IH c c2 ⟨item, hitem, hc⟩ hc2
    unfold deduplicate_content
    simp only [withContent_content, hidem, withContent_withContent]
  · rw [if_neg h1] at h ⊢
    by_cases h2 : addrline nm = true
    · rw [if_pos h2] at h ⊢
      unfold deduplicate_multi_value_field at h ⊢
      split at h
      · exact absurd h (by simp)
      · rename_i gs2 hg2
        have hsound := group_by_key_sound hg2
        have hfa := mapE_ok_forall₂ h
        have hvals : List.Forall₂
            (fun (k : Str) (m : Field) => Field.value m = some k)
            (gs2.map Prod.fst) o := by
          rw [List.forall₂_map_left_iff]
          refine (forall₂_mem_left hfa).imp ?_
          rintro p m ⟨hbp, hp⟩
          exact (hsound.1 p hp m (bestOfRun_spec hbp).1).2
        have hscore : ∀ m ∈ o, ∃ s, m.score = some s := by
          intro m hm
          obtain ⟨p, hp, hbp⟩ := forall₂_exists_left hfa m hm
          obtain ⟨_, s, hsm, _⟩ := bestOfRun_spec hbp
          exact ⟨s, hsm⟩
        rw [group_by_key_strict hvals hsound.2.2.1]
        show mapE (fun p => bestOfRun p.2)
          (List.zipWith (fun k m => (k, [m])) (gs2.map Prod.fst) o) = .ok o
        exact forall₂_mapE_ok (forall₂_bestOfRun_zip hvals hscore)
    · rw [if_neg h2] at h ⊢
      unfold deduplicate_single_value_field at h ⊢
      split at h
      · exact absurd h (by simp)
      · rename_i m hb
        cases h
        obtain ⟨_, s, hsm, _⟩ := bestOfRun_spec hb
        simp only [bestOfRun_singleton hsm]

theorem zip_chunks_spec {gs : List (Str × List Field)}
    {outs : List (List Field)} {R : Str × List Field → List Field → Prop}
    (hfa : List.Forall₂ R gs outs) :
    (List.zipWith (fun p o => (p.1, o)) gs outs).map Prod.fst =
      gs.map Prod.fst ∧
    (List.zipWith (fun p o => (p.1, o)) gs outs).map Prod.snd = outs ∧
    List.Forall₂ (fun p q => q.1 = p.1 ∧ R p q.2) gs
      (List.zipWith (fun p o => (p.1, o)) gs outs) := by
  induction hfa with
  | nil => exact ⟨rfl, rfl, List.Forall₂.nil⟩
  | cons hr htail ih =>
    refine ⟨?_, ?_, ?_⟩ <;>
      simp only [List.zipWith_cons_cons, List.map_cons]
    · rw [ih.1]
    · rw [ih.2.1]
    · exact List.Forall₂.cons ⟨rfl, hr⟩ ih.2.2

/-- Idempotence of the deduplication: re-running it on its own output
returns that output unchanged. -/
theorem dedup_idem : ∀ {fs out : List Field},
    deduplicate_fields fs = .ok out →
    deduplicate_fields out = .ok out := by
  suffices H : ∀ n (fs : List Field), sizeOf fs ≤ n → ∀ out,
      deduplicate_fields fs = .ok out →
      deduplicate_fields out = .ok out by
    intro fs out h
    exact H (sizeOf fs) fs le_rfl out h
  intro n
  induction n with
  | zero =>
    intro fs hle
    exact absurd hle (by cases fs <;> simp)
  | succ n ih =>
    intro fs hle out h
    rw [deduplicate_fields_eq] at h
    split at h
    · exact absurd h (by simp)
    · rename_i gs hg
      unfold dedupAssemble at h
      split at h
      · exact absurd h (by simp)
      · rename_i outs hm
        cases h
        have hsound := group_by_key_sound hg
        have hfa := mapE_ok_forall₂ hm
        obtain ⟨hz1, hz2, hz3⟩ := zip_chunks_spec hfa
        have hkeys2 : ∀ q ∈ List.zipWith
            (fun (p : Str × List Field) o => (p.1, o)) gs outs,
            ∀ m ∈ q.2, Field.name m = some q.1 := by
          intro q hq m hmq
          obtain ⟨p, hp, hq1, hdg⟩ := forall₂_exists_left hz3 q hq
          rw [hq1]
          exact deduplicate_group_names hdg
            (fun f hf => (hsound.1 p hp f hf).2) m hmq
        have hne2 : ∀ q ∈ List.zipWith
            (fun (p : Str × List Field) o => (p.1, o)) gs outs,
            q.2 ≠ [] := by
          intro q hq
          obtain ⟨p, hp, hq1, hdg⟩ := forall₂_exists_left hz3 q hq
          exact deduplicate_group_ne_nil hdg (hsound.2.2.2 p hp)
        have hpw2 : ((List.zipWith
            (fun (p : Str × List Field) o => (p.1, o)) gs outs).map
            Prod.fst).Pairwise (· < ·) := by
          rw [hz1]
          exact hsound.2.2.1
        have hregroup : group_by_key Field.name outs.flatten =
            .ok (List.zipWith
              (fun (p : Str × List Field) o => (p.1, o)) gs outs) := by
          have hr := group_by_key_of_chunks hkeys2 hne2 hpw2
          rw [hz2] at hr
          exact hr
        have hidem : ∀ q ∈ List.zipWith
            (fun (p : Str × List Field) o => (p.1, o)) gs outs,
            deduplicate_group q.1 q.2 = .ok q.2 := by
          intro q hq
          obtain ⟨p, hp, hq1, hdg⟩ := forall₂_exists_left hz3 q hq
          rw [hq1]
          refine deduplicate_group_idem hdg ?_
          rintro c c2 ⟨item, hitem, hc⟩ hdc
          have hmem : item ∈ fs := (hsound.1 p hp item hitem).1
          have h1 := List.sizeOf_lt_of_mem hmem
          have h2 := sizeOf_content_lt hc
          exact ih c (by omega) c2 hdc
        rw [deduplicate_fields_eq, hregroup]
        have hm2 : mapE (fun p => deduplicate_group p.1 p.2)
            (List.zipWith (fun (p : Str × List Field) o => (p.1, o))
              gs outs) =
            .ok ((List.zipWith
              (fun (p : Str × List Field) o => (p.1, o)) gs outs).map
              Prod.snd) := by
          refine forall₂_mapE_ok ?_
          rw [List.forall₂_map_right_iff]
          exact List.forall₂_same.mpr hidem
        show dedupAssemble (mapE (fun p => deduplicate_group p.1 p.2)
          (List.zipWith (fun (p : Str × List Field) o => (p.1, o))
            gs outs)) = .ok outs.flatten
        rw [hm2]
        unfold dedupAssemble
        rw [hz2]

/-! ## The extraction client: submit, poll, extract

The HTTP transport is an external collaborator: it is abstracted by the
parsed JSON the server answers with (`submitResp` for the upload,
`statusFn n` for the `n`-th status query).  Each operation additionally
returns the ordered list of network `Event`s it performed, so that
"never calls the status-query capability" is a statement about the
returned trace. -/

/-- `DEFAULT_API_URL` of the module. -/
def DEFAULT_API_URL : String := "https://all.rir.rossum.ai"

/-- `self.default_locale = 'en_GB'` set in `ElisExtractionApi.__init__`. -/
def default_locale : String := "en_GB"

/-- A network call performed by the client. -/
inductive Event where
  | submit (url : String)
  | statusQuery (n : Nat)
deriving DecidableEq

/-- The parsed JSON of a submit response: the keys the client reads. -/
structure SubmitResult where
  id : Option String
  error : Option String
deriving DecidableEq

/-- The parsed JSON of a status response: the `status` and `message`
keys the client reads, plus the rest of the payload, opaque. -/
structure DocResponse where
  status : Option String
  message : Option String
  body : String
deriving DecidableEq

/-- The URL built by `send_document`:
`'%s/document?locale=%s' % (self.base_url, locale)`, after
`if locale is None: locale = self.default_locale`. -/
def send_document_url (base_url : String) (locale : Option String) : String :=
  base_url ++ "/document?locale=" ++
    (match locale with
     | none => default_locale
     | some l => l)

/-- `send_document(document_path, locale)`: POST the multipart upload
(a `submit` event carrying the URL), parse the response, raise
`ValueError(result['error'])` if an `error` key is present, else
return the parsed result. -/
def send_document (base_url : String) (locale : Option String)
    (submitResp : SubmitResult) : Except PyErr SubmitResult × List Event :=
  let url := send_document_url base_url locale
  match submitResp.error with
  | some e => (.error (.valueError e), [.submit url])
  | none => (.ok submitResp, [.submit url])

/-- `get_document_status(document_id, filter, verbose)`: validate
`filter` before the GET; then GET the status (a `statusQuery` event)
and read `response_json['status']` (`KeyError` when absent).  The
verbose progress printing is an unmodelled side effect. -/
def get_document_status (statusFn : Nat → DocResponse) (filter : String)
    (n : Nat) : Except PyErr DocResponse × List Event :=
  if filter ≠ "best" ∧ filter ≠ "all" then
    (.error (.valueError ("Filter can be one of best or all, not " ++
      filter)), [])
  else
    match (statusFn n).status with
    | none => (.error .keyError, [.statusQuery n])
    | some _ => (.ok (statusFn n), [.statusQuery n])

/-- Modelled from the spec: the poll loop of the external `polling`
library (`polling.poll`) is not part of this repository.  Per spec
section 4.1, `waitForTerminal` invokes the status capability once,
returns immediately on a response that satisfies the success check,
otherwise sleeps `step` seconds and repeats, and fails with `Timeout`
once the terminal state is not reached within `timeout` seconds — the
logical elapsed time after `n` sleeps being `n * step`.  Exceptions
raised by the target propagate.  `fuel` merely bounds the recursion
depth; theorems quantify over sufficient fuel.  Queries are numbered
from `n`. -/
def pollFrom (target : Nat → Except PyErr DocResponse × List Event)
    (check_success : DocResponse → Bool) (step timeout : Nat) :
    Nat → Nat → Except PyErr DocResponse × List Event
  | 0, _ => (.error .timeoutError, [])
  | fuel + 1, n =>
    match target n with
    | (.error e, tr) => (.error e, tr)
    | (.ok r, tr) =>
      if check_success r then (.ok r, tr)
      else if timeout < (n + 1) * step then (.error .timeoutError, tr)
      else
        let next := pollFrom target check_success step timeout fuel (n + 1)
        (next.1, tr ++ next.2)

/-- `is_done(response_json)`: `response_json['status'] != 'processing'`. -/
def is_done (r : DocResponse) : Bool := r.status ≠ some "processing"

/-- `get_document(document_id, filter, max_retries, sleep_secs)`:
poll until done, with timeout budget
`int(round(max_retries * sleep_secs))` = `max_retries * sleep_secs`
(both are naturals here). -/
def get_document (statusFn : Nat → DocResponse) (filter : String)
    (max_retries sleep_secs fuel : Nat) :
    Except PyErr DocResponse × List Event :=
  pollFrom (fun n => get_document_status statusFn filter n) is_done
    sleep_secs (max_retries * sleep_secs) fuel 0

/-- `extract(document_file, output_file, filter, locale)`: submit, read
`send_result['id']` (`KeyError` when absent), poll to terminal state,
and translate a terminal `error` status into
`ValueError(extraction['message'])`.  Saving `output_file` and the
preview printing are external side effects not modelled. -/
def extract (base_url : String) (locale : Option String)
    (submitResp : SubmitResult) (statusFn : Nat → DocResponse)
    (filter : String) (max_retries sleep_secs fuel : Nat) :
    Except PyErr DocResponse × List Event :=
  match send_document base_url locale submitResp with
  | (.error e, tr) => (.error e, tr)
  | (.ok send_result, tr) =>
    match send_result.id with
    | none => (.error .keyError, tr)
    | some _ =>
      let res := get_document statusFn filter max_retries sleep_secs fuel
      match res.1 with
      | .error e => (.error e, tr ++ res.2)
      | .ok extraction =>
        if extraction.status = some "error" then
          match extraction.message with
          | none => (.error .keyError, tr ++ res.2)
          | some msg => (.error (.valueError msg), tr ++ res.2)
        else (.ok extraction, tr ++ res.2)

theorem pollFrom_done {target : Nat → Except PyErr DocResponse × List Event}
    {cs : DocResponse → Bool} {step timeout fuel n : Nat}
    {r : DocResponse} {tr : List Event}
    (ht : target n = (.ok r, tr)) (hr : cs r = true) :
    pollFrom target cs step timeout (fuel + 1) n = (.ok r, tr) := by
  simp [pollFrom, ht, hr]

theorem pollFrom_not_done {target : Nat → Except PyErr DocResponse × List Event}
    {cs : DocResponse → Bool} {step timeout fuel n : Nat}
    {r : DocResponse} {tr : List Event}
    (ht : target n = (.ok r, tr)) (hr : cs r = false)
    (hto : ¬ timeout < (n + 1) * step) :
    pollFrom target cs step timeout (fuel + 1) n =
      ((pollFrom target cs step timeout fuel (n + 1)).1,
       tr ++ (pollFrom target cs step timeout fuel (n + 1)).2) := by
  simp [pollFrom, ht, hr, hto]

/-! ## Claim theorems -/

/-- C2: for a group whose shared name is neither `tax_details` nor an
`_addrline` name, the deduplicated output is exactly one entry of the
group, carrying the group's maximum score (the tie-break among equal
maximum scores is deterministic because `deduplicate_group` is a
function of the group). -/
theorem claim_C2_single_value_policy (nm : Str) {group out : List Field}
    (hname : ∀ f ∈ group, f.name = some nm)
    (hnm1 : nm ≠ "tax_details".toList) (hnm2 : addrline nm = false)
    (h : deduplicate_group nm group = .ok out) :
    ∃ m, out = [m] ∧ m ∈ group ∧ ∃ sm, m.score = some sm ∧
      ∀ f ∈ group, ∃ sf, f.score = some sf ∧ sf ≤ sm := by
  unfold deduplicate_group at h
  rw [if_neg hnm1] at h
  rw [hnm2] at h
  simp only [Bool.false_eq_true, if_false] at h
  exact deduplicate_single_value_spec h

/-- Witness for C2: the spec's own example, `total` at scores 0.7 and
0.95, keeps exactly the 0.95 entry. -/
theorem claim_C2_single_value_policy_witness :
    ∃ m, [Field.mk (some "total".toList) none (some "105".toList) (some 95) none] =
        [m] ∧
      m ∈ [Field.mk (some "total".toList) none (some "100".toList) (some 70) none,
           Field.mk (some "total".toList) none (some "105".toList) (some 95) none] ∧
      ∃ sm, m.score = some sm ∧
        ∀ f ∈ [Field.mk (some "total".toList) none (some "100".toList) (some 70) none,
               Field.mk (some "total".toList) none (some "105".toList) (some 95) none],
          ∃ sf, f.score = some sf ∧ sf ≤ sm := by
  refine claim_C2_single_value_policy "total".toList ?_ (by decide)
    (by decide) ?_
  · intro f hf
    rcases List.mem_cons.mp hf with rfl | hf2
    · rfl
    · rcases List.mem_cons.mp hf2 with rfl | hf3
      · rfl
      · simp at hf3
  · rfl

/-- C3: for a group whose shared name contains `_addrline`, the
deduplicated output has exactly one entry per distinct `value` (output
values are pairwise distinct and every group value is represented),
and each surviving entry has the maximum score among the group's
entries sharing its value. -/
theorem claim_C3_multi_value_policy (nm : Str) {group out : List Field}
    (hname : ∀ f ∈ group, f.name = some nm)
    (haddr : addrline nm = true)
    (h : deduplicate_group nm group = .ok out) :
    (∀ m ∈ out, m ∈ group ∧ ∃ vm sm, m.value = some vm ∧
      m.score = some sm ∧
      ∀ f ∈ group, f.value = some vm →
        ∃ sf, f.score = some sf ∧ sf ≤ sm) ∧
    (out.Pairwise (fun m1 m2 => m1.value ≠ m2.value)) ∧
    (∀ f ∈ group, ∃ m ∈ out, m.value = f.value) := by
  have hnm : nm ≠ "tax_details".toList := by
    rintro rfl
    exact absurd haddr (by decide)
  unfold deduplicate_group at h
  rw [if_neg hnm, haddr] at h
  simp only [if_true] at h
  exact deduplicate_multi_value_spec h

/-- Witness for C3: the spec's own example, two detections of
`123 Main St` (scores 0.9 and 0.4) and one `Suite 5` (0.8) collapse to
two entries. -/
theorem claim_C3_multi_value_policy_witness :
    (∀ m ∈ [Field.mk (some "sender_addrline".toList) none (some "123 Main St".toList)
              (some 90) none,
            Field.mk (some "sender_addrline".toList) none (some "Suite 5".toList)
              (some 80) none],
      m ∈ [Field.mk (some "sender_addrline".toList) none (some "123 Main St".toList)
              (some 90) none,
           Field.mk (some "sender_addrline".toList) none (some "123 Main St".toList)
              (some 40) none,
           Field.mk (some "sender_addrline".toList) none (some "Suite 5".toList)
              (some 80) none] ∧
      ∃ vm sm, m.value = some vm ∧ m.score = some sm ∧
        ∀ f ∈ [Field.mk (some "sender_addrline".toList) none (some "123 Main St".toList)
                  (some 90) none,
               Field.mk (some "sender_addrline".toList) none (some "123 Main St".toList)
                  (some 40) none,
               Field.mk (some "sender_addrline".toList) none (some "Suite 5".toList)
                  (some 80) none],
          f.value = some vm → ∃ sf, f.score = some sf ∧ sf ≤ sm) ∧
    ([Field.mk (some "sender_addrline".toList) none (some "123 Main St".toList)
        (some 90) none,
      Field.mk (some "sender_addrline".toList) none (some "Suite 5".toList)
        (some 80) none].Pairwise (fun m1 m2 => m1.value ≠ m2.value)) ∧
    (∀ f ∈ [Field.mk (some "sender_addrline".toList) none (some "123 Main St".toList)
              (some 90) none,
            Field.mk (some "sender_addrline".toList) none (some "123 Main St".toList)
              (some 40) none,
            Field.mk (some "sender_addrline".toList) none (some "Suite 5".toList)
              (some 80) none],
      ∃ m ∈ [Field.mk (some "sender_addrline".toList) none (some "123 Main St".toList)
                (some 90) none,
             Field.mk (some "sender_addrline".toList) none (some "Suite 5".toList)
                (some 80) none], m.value = f.value) := by
  refine claim_C3_multi_value_policy "sender_addrline".toList ?_
    (by decide) ?_
  · intro f hf
    rcases List.mem_cons.mp hf with rfl | hf2
    · rfl
    · rcases List.mem_cons.mp hf2 with rfl | hf3
      · rfl
      · rcases List.mem_cons.mp hf3 with rfl | hf4
        · rfl
        · simp at hf4
  · rfl

/-- C4: for a `tax_details` group, deduplication keeps every top-level
entry (the count is unchanged) and replaces each entry's `content` by
the recursively deduplicated sub-list, leaving name, title, value and
score unchanged. -/
theorem claim_C4_tax_details_policy {group out : List Field}
    (hname : ∀ f ∈ group, f.name = some "tax_details".toList)
    (h : deduplicate_group "tax_details".toList group = .ok out) :
    out.length = group.length ∧
    List.Forall₂ (fun f m => f.name = m.name ∧ f.title = m.title ∧
      f.value = m.value ∧ f.score = m.score ∧
      ∃ c c2, f.content = some c ∧ deduplicate_fields c = .ok c2 ∧
        m.content = some c2) group out := by
  unfold deduplicate_group at h
  rw [if_pos rfl] at h
  have hfa := mapE_ok_forall₂ h
  have hfa2 : List.Forall₂ (fun f m => f.name = m.name ∧ f.title = m.title ∧
      f.value = m.value ∧ f.score = m.score ∧
      ∃ c c2, f.content = some c ∧ deduplicate_fields c = .ok c2 ∧
        m.content = some c2) group out := by
    refine hfa.imp ?_
    intro f m hfm
    obtain ⟨c, c2, hc, hc2, rfl⟩ := deduplicate_content_ok hfm
    exact ⟨(withContent_name f c2).symm, (withContent_title f c2).symm,
      (withContent_value f c2).symm, (withContent_score f c2).symm,
      c, c2, hc, hc2, withContent_content f c2⟩
  exact ⟨hfa2.length_eq.symm, hfa2⟩

/-- Witness for C4: a one-entry `tax_details` group whose `content`
holds two same-named leaves collapses the content to its best leaf
while keeping the top-level entry. -/
theorem claim_C4_tax_details_policy_witness :
    (([Field.mk (some "tax_details".toList) (some "Tax".toList) none none
        (some [Field.mk (some "vat".toList) none (some "19".toList) (some 75) none])] :
        List Field).length =
      ([Field.mk (some "tax_details".toList) (some "Tax".toList) none none
        (some [Field.mk (some "vat".toList) none (some "7".toList) (some 50) none,
               Field.mk (some "vat".toList) none (some "19".toList) (some 75) none])] :
        List Field).length) ∧
    List.Forall₂ (fun f m => f.name = m.name ∧ f.title = m.title ∧
      f.value = m.value ∧ f.score = m.score ∧
      ∃ c c2, f.content = some c ∧ deduplicate_fields c = .ok c2 ∧
        m.content = some c2)
      [Field.mk (some "tax_details".toList) (some "Tax".toList) none none
        (some [Field.mk (some "vat".toList) none (some "7".toList) (some 50) none,
               Field.mk (some "vat".toList) none (some "19".toList) (some 75) none])]
      [Field.mk (some "tax_details".toList) (some "Tax".toList) none none
        (some [Field.mk (some "vat".toList) none (some "19".toList) (some 75) none])] := by
  have hinner : deduplicate_fields
      [Field.mk (some "vat".toList) none (some "7".toList) (some 50) none,
       Field.mk (some "vat".toList) none (some "19".toList) (some 75) none] =
      .ok [Field.mk (some "vat".toList) none (some "19".toList) (some 75) none] := by
    rw [deduplicate_fields_eq]
    rfl
  refine claim_C4_tax_details_policy ?_ ?_
  · intro f hf
    rcases List.mem_cons.mp hf with rfl | hf2
    · rfl
    · simp at hf2
  · unfold deduplicate_group
    rw [if_pos rfl]
    simp only [mapE, deduplicate_content, Field.content, hinner,
      Field.withContent]

/-- C5: for a status function yielding `processing, processing, ready`
and a step interval of 0 seconds, `get_document` returns the `ready`
payload after exactly 3 status queries (the trace is exactly three
`statusQuery` events); and `get_document` always hands the poller a
timeout budget of `max_retries * sleep_secs` seconds. -/
theorem claim_C5_poller_three_queries
    (statusFn : Nat → DocResponse) (filter : String) (mr fuel : Nat)
    (hfilter : filter = "best" ∨ filter = "all")
    (h0 : (statusFn 0).status = some "processing")
    (h1 : (statusFn 1).status = some "processing")
    (h2 : (statusFn 2).status = some "ready")
    (hfuel : 3 ≤ fuel) :
    get_document statusFn filter mr 0 fuel =
      (.ok (statusFn 2),
       [.statusQuery 0, .statusQuery 1, .statusQuery 2]) ∧
    ∀ (sf : Nat → DocResponse) (f : String) (m s fl : Nat),
      get_document sf f m s fl =
        pollFrom (fun n => get_document_status sf f n) is_done
          s (m * s) fl 0 := by
  refine ⟨?_, fun _ _ _ _ _ => rfl⟩
  have hcond : ¬(filter ≠ "best" ∧ filter ≠ "all") := by
    rcases hfilter with rfl | rfl <;> simp
  have hgds : ∀ n st, (statusFn n).status = some st →
      get_document_status statusFn filter n =
        (.ok (statusFn n), [.statusQuery n]) := by
    intro n st hst
    unfold get_document_status
    rw [if_neg hcond, hst]
  obtain ⟨k, rfl⟩ : ∃ k, fuel = (k + 2) + 1 := ⟨fuel - 3, by omega⟩
  unfold get_document
  rw [pollFrom_not_done (hgds 0 _ h0) (by simp [is_done, h0]) (by simp)]
  rw [show k + 2 = (k + 1) + 1 from rfl]
  rw [pollFrom_not_done (hgds 1 _ h1) (by simp [is_done, h1]) (by simp)]
  rw [pollFrom_done (hgds 2 _ h2) (by simp [is_done, h2])]
  rfl

/-- Witness for C5: three queries at step 0 against a concrete status
function return the ready payload. -/
theorem claim_C5_poller_three_queries_witness :
    get_document
      (fun n => if n < 2 then ⟨some "processing", none, ""⟩
                else ⟨some "ready", none, "payload"⟩) "best" 120 0 3 =
      (.ok ⟨some "ready", none, "payload"⟩,
       [.statusQuery 0, .statusQuery 1, .statusQuery 2]) ∧
    ∀ (sf : Nat → DocResponse) (f : String) (m s fl : Nat),
      get_document sf f m s fl =
        pollFrom (fun n => get_document_status sf f n) is_done
          s (m * s) fl 0 :=
  claim_C5_poller_three_queries
    (fun n => if n < 2 then ⟨some "processing", none, ""⟩
              else ⟨some "ready", none, "payload"⟩)
    "best" 120 3 (Or.inl rfl) rfl rfl rfl (by omega)

/-- C6: when the submit response contains an `error` key, `extract`
fails with `ValueError(result['error'])` raised from the submit step,
and never invokes the status-query capability: the network trace is
exactly the single submit call. -/
theorem claim_C6_submit_error_no_poll
    (base_url : String) (locale : Option String)
    (submitResp : SubmitResult) (statusFn : Nat → DocResponse)
    (filter : String) (mr ss fuel : Nat) {e : String}
    (herr : submitResp.error = some e) :
    extract base_url locale submitResp statusFn filter mr ss fuel =
      (.error (.valueError e),
       [.submit (send_document_url base_url locale)]) := by
  unfold extract send_document
  rw [herr]

/-- Witness for C6: a concrete rejected upload performs one submit and
zero status queries. -/
theorem claim_C6_submit_error_no_poll_witness :
    extract DEFAULT_API_URL none ⟨none, some "unsupported file type"⟩
      (fun _ => ⟨some "ready", none, ""⟩) "best" 120 5 200 =
      (.error (.valueError "unsupported file type"),
       [.submit (send_document_url DEFAULT_API_URL none)]) :=
  claim_C6_submit_error_no_poll DEFAULT_API_URL none
    ⟨none, some "unsupported file type"⟩
    (fun _ => ⟨some "ready", none, ""⟩) "best" 120 5 200 rfl

/-- C7 counterexample: the claim asserts that the `filter` check
happens before any network call, in particular before the document is
submitted.  In the code the check lives in `get_document_status`,
which runs only after `send_document`: a concrete run with the bad
filter `"bogus"` does fail with the `ValueError`, but its network
trace already contains the submit call. -/
theorem claim_C7_filter_check_counterexample :
    (extract DEFAULT_API_URL none ⟨some "7e1a", none⟩
        (fun _ => ⟨some "processing", none, ""⟩) "bogus" 120 5 1).1 =
      .error (.valueError "Filter can be one of best or all, not bogus") ∧
    Event.submit "https://all.rir.rossum.ai/document?locale=en_GB" ∈
      (extract DEFAULT_API_URL none ⟨some "7e1a", none⟩
        (fun _ => ⟨some "processing", none, ""⟩) "bogus" 120 5 1).2 :=
  ⟨rfl, by decide⟩

/-- C7 (amended): with a `filter` outside best/all, `extract` fails
with the `ValueError` and the check precedes the status GET — no
`statusQuery` event is emitted — but only after the document has been
submitted: the trace is exactly the one submit call. -/
theorem claim_C7_filter_check_amended
    (base_url : String) (locale : Option String)
    (submitResp : SubmitResult) (statusFn : Nat → DocResponse)
    (filter : String) (mr ss fuel : Nat) {did : String}
    (hfil1 : filter ≠ "best") (hfil2 : filter ≠ "all")
    (hok : submitResp.error = none) (hid : submitResp.id = some did)
    (hfuel : 1 ≤ fuel) :
    extract base_url locale submitResp statusFn filter mr ss fuel =
      (.error (.valueError
        ("Filter can be one of best or all, not " ++ filter)),
       [.submit (send_document_url base_url locale)]) := by
  obtain ⟨k, rfl⟩ : ∃ k, fuel = k + 1 := ⟨fuel - 1, by omega⟩
  unfold extract send_document
  rw [hok]
  simp only [hid, get_document, pollFrom, get_document_status,
    if_pos (And.intro hfil1 hfil2), List.append_nil]

/-- Witness for C7's amended statement, at the counterexample's own
concrete input. -/
theorem claim_C7_filter_check_amended_witness :
    extract DEFAULT_API_URL none ⟨some "7e1a", none⟩
      (fun _ => ⟨some "processing", none, ""⟩) "bogus" 120 5 1 =
      (.error (.valueError "Filter can be one of best or all, not bogus"),
       [.submit (send_document_url DEFAULT_API_URL none)]) :=
  claim_C7_filter_check_amended DEFAULT_API_URL none ⟨some "7e1a", none⟩
    (fun _ => ⟨some "processing", none, ""⟩) "bogus" 120 5 1
    (by decide) (by decide) rfl rfl (by omega)

/-- C8 counterexample: the claim asserts every submit URL carries a
`tables` query parameter.  The URL `send_document` builds is exactly
`{base}/document?locale={locale}`, with no `tables` parameter: the
default submission URL does not even contain the string `tables`. -/
theorem claim_C8_tables_param_counterexample :
    send_document_url DEFAULT_API_URL none =
      "https://all.rir.rossum.ai/document?locale=en_GB" ∧
    ¬ ("tables".toList <:+:
        ("https://all.rir.rossum.ai/document?locale=en_GB").toList) :=
  ⟨rfl, by decide⟩

/-- C8 (amended): every submission's multipart POST goes to exactly
`{base_url}/document?locale={locale}` — the `locale` query parameter
is always present (the given locale, or the default when absent), and
no `tables` parameter exists (the client takes no `tablesEnabled`
argument). -/
theorem claim_C8_submit_url_amended (base_url : String) (locale : String) :
    send_document_url base_url (some locale) =
      base_url ++ "/document?locale=" ++ locale ∧
    send_document_url base_url none =
      base_url ++ "/document?locale=" ++ default_locale ∧
    ∀ submitResp : SubmitResult,
      (send_document base_url (some locale) submitResp).2 =
        [.submit (base_url ++ "/document?locale=" ++ locale)] := by
  refine ⟨rfl, rfl, ?_⟩
  intro s
  unfold send_document
  cases hs : s.error <;> rfl

/-- C9: a submission with `locale = None` substitutes the hardcoded
default `'en_GB'` into the `locale` query parameter rather than
omitting it; every submission URL carries a locale. -/
theorem claim_C9_locale_default (base_url : String) (locale : Option String) :
    default_locale = "en_GB" ∧
    (∀ submitResp : SubmitResult,
      (send_document base_url none submitResp).2 =
        [.submit (base_url ++ "/document?locale=" ++ "en_GB")]) ∧
    ∃ l, send_document_url base_url locale =
        base_url ++ "/document?locale=" ++ l ∧
      (locale = none → l = "en_GB") ∧
      ∀ l0, locale = some l0 → l = l0 := by
  refine ⟨rfl, ?_, ?_⟩
  · intro s
    unfold send_document
    cases hs : s.error <;> rfl
  · cases locale with
    | none => exact ⟨"en_GB", rfl, fun _ => rfl, fun l0 h => by cases h⟩
    | some l0 =>
      refine ⟨l0, rfl, ?_, ?_⟩
      · intro h
        cases h
      · intro l1 h
        exact Option.some.inj h

/-- C10: `_deduplicate_fields` is partial, raising `KeyError` (never
returning) whenever (a) some input field lacks `'name'`; or, for the
name-groups it forms, (b) some field of a group not named
`tax_details` lacks `'score'` (e.g. a composite field sharing a name
with leaf fields), (c) some field of an `_addrline` group lacks
`'value'`, (d) some field of a `tax_details` group lacks `'content'`;
and (e) under the recursive precondition that all these keys are
present, every error branch is unreachable and the function is
total. -/
theorem claim_C10_partiality :
    (∀ fs : List Field, (∃ f ∈ fs, f.name = none) →
      _deduplicate_fields fs = .error .keyError) ∧
    (∀ (fs : List Field) (gs : List (Str × List Field)),
      group_by_key Field.name fs = .ok gs → ∀ p ∈ gs,
      ((p.1 ≠ "tax_details".toList ∧ ∃ f ∈ p.2, f.score = none) ∨
       (addrline p.1 = true ∧ ∃ f ∈ p.2, f.value = none) ∨
       (p.1 = "tax_details".toList ∧ ∃ f ∈ p.2, f.content = none)) →
      _deduplicate_fields fs = .error .keyError) ∧
    (∀ fs : List Field, (∀ f ∈ fs, FieldWellKeyed f) →
      ∃ out, _deduplicate_fields fs = .ok out) := by
  refine ⟨?_, ?_, ?_⟩
  · rintro fs ⟨f, hf, hn⟩
    cases hdd : deduplicate_fields fs with
    | ok out =>
      obtain ⟨nm, hnm⟩ := (dedup_ok_keys hdd).1 f hf
      rw [hn] at hnm
      exact absurd hnm (by simp)
    | error e =>
      unfold _deduplicate_fields
      rw [hdd, dedup_errors_are_keyError hdd]
  · intro fs gs hg p hp hbad
    cases hdd : deduplicate_fields fs with
    | ok out =>
      obtain ⟨hsc, hval, hcont⟩ := (dedup_ok_keys hdd).2 gs hg p hp
      rcases hbad with ⟨hnm, f, hf, hmiss⟩ | ⟨haddr, f, hf, hmiss⟩ |
        ⟨htax, f, hf, hmiss⟩
      · obtain ⟨s, hs⟩ := hsc hnm f hf
        rw [hmiss] at hs
        exact absurd hs (by simp)
      · obtain ⟨v, hv⟩ := hval haddr f hf
        rw [hmiss] at hv
        exact absurd hv (by simp)
      · obtain ⟨c, hc⟩ := hcont htax f hf
        rw [hmiss] at hc
        exact absurd hc (by simp)
    | error e =>
      unfold _deduplicate_fields
      rw [hdd, dedup_errors_are_keyError hdd]
  · intro fs h
    exact dedup_ok_of_wellKeyed h

/-- Witness for C10: one concrete list per error condition, and a
well-keyed list on which the function succeeds. -/
theorem claim_C10_partiality_witness :
    _deduplicate_fields [Field.mk none none none none none] =
      .error .keyError ∧
    _deduplicate_fields [Field.mk (some "total".toList) none
      (some "1".toList) none none] = .error .keyError ∧
    _deduplicate_fields [Field.mk (some "x_addrline".toList) none none
      (some 1) none] = .error .keyError ∧
    _deduplicate_fields [Field.mk (some "tax_details".toList) none none
      none none] = .error .keyError ∧
    ∃ out, _deduplicate_fields [Field.mk (some "amount".toList) none
      (some "3".toList) (some 1) none] = .ok out := by
  refine ⟨?_, ?_, ?_, ?_, ?_⟩
  · exact claim_C10_partiality.1 _ ⟨_, List.mem_singleton_self _, rfl⟩
  · exact claim_C10_partiality.2.1 _
      [("total".toList,
        [Field.mk (some "total".toList) none (some "1".toList) none none])]
      rfl _ (List.mem_singleton_self _)
      (Or.inl ⟨by decide, _, List.mem_singleton_self _, rfl⟩)
  · exact claim_C10_partiality.2.1 _
      [("x_addrline".toList,
        [Field.mk (some "x_addrline".toList) none none (some 1) none])]
      rfl _ (List.mem_singleton_self _)
      (Or.inr (Or.inl ⟨by decide, _, List.mem_singleton_self _, rfl⟩))
  · exact claim_C10_partiality.2.1 _
      [("tax_details".toList,
        [Field.mk (some "tax_details".toList) none none none none])]
      rfl _ (List.mem_singleton_self _)
      (Or.inr (Or.inr ⟨rfl, _, List.mem_singleton_self _, rfl⟩))
  · refine claim_C10_partiality.2.2 _ ?_
    intro f hf
    rcases List.mem_singleton.mp hf with rfl
    exact FieldWellKeyed.leaf _ "amount".toList rfl (by decide) ⟨1, rfl⟩
      (fun h => absurd h (by decide))

/-- C1: field deduplication is idempotent — whenever
`_deduplicate_fields` is defined on an input (returns instead of
raising), applying it to its own output returns that output
unchanged. -/
theorem claim_C1_dedupe_idempotent (fs : List Field) {out : List Field}
    (h : _deduplicate_fields fs = .ok out) :
    _deduplicate_fields out = .ok out :=
  dedup_idem h

/-- Witness for C1: deduplicating the spec's `sender_addrline` example
yields two entries, and deduplicating those again returns them
unchanged. -/
theorem claim_C1_dedupe_idempotent_witness :
    _deduplicate_fields
      [Field.mk (some "sender_addrline".toList) none
        (some "123 Main St".toList) (some 90) none,
       Field.mk (some "sender_addrline".toList) none
        (some "Suite 5".toList) (some 80) none] =
    .ok
      [Field.mk (some "sender_addrline".toList) none
        (some "123 Main St".toList) (some 90) none,
       Field.mk (some "sender_addrline".toList) none
        (some "Suite 5".toList) (some 80) none] :=
  claim_C1_dedupe_idempotent
    [Field.mk (some "sender_addrline".toList) none
      (some "123 Main St".toList) (some 90) none,
     Field.mk (some "sender_addrline".toList) none
      (some "123 Main St".toList) (some 40) none,
     Field.mk (some "sender_addrline".toList) none
      (some "Suite 5".toList) (some 80) none]
    (by unfold _deduplicate_fields; rw [deduplicate_fields_eq]; rfl)

end Rossum
